import Mathlib

/-!
A model of `runner.go` of go-task-runner, and its properties.

`runner.go` registers named tasks (`AddTask`, `AddTaskWithTimeout`), lets the
caller cancel them (`CancelTaskByName`, `CancelAll`) and runs them all
concurrently (`Run`, `spawn`).

The registry operations are embedded as pure functions on `Runner`.  `Run` is
concurrent, so it is embedded as a step function on a global state
(`RunState`): one entry per `spawn` goroutine, the buffered channels, the
`WaitGroup` counter and the collector loop.  A schedule is a list of actions;
`exec` runs a schedule and fails when an action is not enabled.

What comes from the Go runtime and the `context` package, and not from
`runner.go`, is the behaviour of channels (a send on a closed channel
panics, a send on a full channel blocks, a `select` picks any ready case), of
panics (an unrecovered panic ends the program) and of contexts (`Err` is `nil`
until the context is done, and the first cause wins).

Time is not modelled.  That a deadline elapses, or that an ancestor of a
context is cancelled, is a step of the environment that a schedule may take
at any moment at which the context is not done.  The goroutines interleave
freely: a schedule may delay any goroutine for as long as it likes.
-/

namespace GoTaskRunner

/-! ## Values, errors, contexts -/

/-- Go `error` values that occur: the two `context` errors and the errors
made by `fmt.Errorf` or returned by a work function. -/
inductive GoError where
  | Canceled
  | DeadlineExceeded
  | Errorf (msg : String)
  deriving DecidableEq, Repr

/-- The method `Error()` of an error. -/
def GoError.Error : GoError → String
  | .Canceled => "context canceled"
  | .DeadlineExceeded => "context deadline exceeded"
  | .Errorf msg => msg

/-- Values of Go type `any`: `nil`, strings and integers stand for them. -/
inductive GoAny where
  | nil
  | str (s : String)
  | int (n : Int)
  deriving DecidableEq, Repr

/-- State of a `context.Context`.  `err` is what `ctx.Err()` returns (`none`
is `nil`: the context is not done).  `canExpire` says that a deadline, its
own or an ancestor's, is pending; `canCancel` says that an ancestor may still
be cancelled by its owner. -/
structure Context where
  err : Option GoError
  canExpire : Bool
  canCancel : Bool
  deriving DecidableEq, Repr

/-- `context.Background()` and `context.TODO()`: never done. -/
def Background : Context := { err := none, canExpire := false, canCancel := false }

/-- `context.WithCancel(parent)`: done as soon as the parent is, with the
parent's error; its own cancel function is `Context.cancel`. -/
def WithCancel (parent : Context) : Context :=
  { err := parent.err, canExpire := parent.canExpire, canCancel := parent.canCancel }

/-- `context.WithTimeout(parent, d)`: a parent that is done passes its error
on; otherwise a duration `d ≤ 0` has expired already; otherwise the deadline
is pending.  A pending deadline elapses by a step of the environment, at any
later moment: between two calls on the runner (`Runner.elapse`, which for a
small `d` has happened when the registration returns) or during `Run` (the
step `deadline` of `SpawnAct`). -/
def WithTimeout (parent : Context) (d : Int) : Context :=
  match parent.err with
  | some e => { err := some e, canExpire := false, canCancel := false }
  | none =>
    if d ≤ 0 then { err := some .DeadlineExceeded, canExpire := false, canCancel := false }
    else { err := none, canExpire := true, canCancel := parent.canCancel }

/-- Calling the `context.CancelFunc` of a context: the first call on a
context that is not done sets `Canceled`, every other call does nothing. -/
def Context.cancel (c : Context) : Context :=
  match c.err with
  | some _ => c
  | none => { c with err := some .Canceled }

/-- The deadline of the context elapses. -/
def Context.expire (c : Context) : Context :=
  match c.err with
  | some _ => c
  | none => { c with err := some .DeadlineExceeded }

/-! ## The registry -/

/-- A work function `func() (any, error)`, given by what it returns; `none`
is a function that never returns. -/
structure RunnerFunc where
  ret : Option (GoAny × Option GoError)
  deriving DecidableEq, Repr

/-- The struct `RunnerTask`; `cancelFunc` is `Context.cancel` on `ctx`. -/
structure RunnerTask where
  task : RunnerFunc
  ctx : Context
  deriving DecidableEq, Repr

/-- The struct `response`. -/
structure response where
  key : String
  Value : GoAny
  Error : Option GoError
  deriving DecidableEq, Repr

/-- The struct `Runner`: the map `tasks` as a list of entries. -/
structure Runner where
  tasks : List (String × RunnerTask)
  deriving DecidableEq, Repr

/-- A Go map has one entry for each key.  `NewRunner` is well formed and every
registry operation keeps a runner so. -/
def Runner.WF (r : Runner) : Prop := (r.tasks.map Prod.fst).Nodup

instance Runner.decidableWF (r : Runner) : Decidable r.WF :=
  inferInstanceAs (Decidable (r.tasks.map Prod.fst).Nodup)

/-- The test `_, ok := r.tasks[taskName]`. -/
def Runner.has (r : Runner) (taskName : String) : Bool :=
  r.tasks.any (fun p => p.1 == taskName)

/-- The read `r.tasks[taskName]`. -/
def Runner.get (r : Runner) (taskName : String) : Option RunnerTask :=
  (r.tasks.find? (fun p => p.1 == taskName)).map Prod.snd

/-- The function `NewRunner`. -/
def NewRunner : Runner := { tasks := [] }

/-- The method `AddTask`: the runner after the call and the returned error. -/
def Runner.AddTask (r : Runner) (rf : RunnerFunc) (taskName : String) :
    Runner × Option GoError :=
  if r.has taskName then
    (r, some (.Errorf ("task with name " ++ taskName ++ " already added to task queue")))
  else
    ({ tasks := r.tasks ++ [(taskName, { task := rf, ctx := WithCancel Background })] }, none)

/-- The method `CancelTaskByName`. -/
def Runner.CancelTaskByName (r : Runner) (taskName : String) : Runner :=
  if r.has taskName then
    { tasks := r.tasks.map (fun p =>
        if p.1 = taskName then (p.1, { p.2 with ctx := p.2.ctx.cancel }) else p) }
  else r

/-- The method `CancelAll`. -/
def Runner.CancelAll (r : Runner) : Runner :=
  { tasks := r.tasks.map (fun p => (p.1, { p.2 with ctx := p.2.ctx.cancel })) }

/-- The method `AddTaskWithTimeout`. -/
def Runner.AddTaskWithTimeout (r : Runner) (rf : RunnerFunc) (taskName : String)
    (ctx : Context) (d : Int) : Runner × Option GoError :=
  if r.has taskName then
    (r, some (.Errorf ("task with name " ++ taskName ++ " already added to task queue")))
  else
    ({ tasks := r.tasks ++ [(taskName, { task := rf, ctx := WithTimeout ctx d })] }, none)

/-! ## The goroutines of `Run` -/

/-- Where a call of `spawn` stands. -/
inductive Pc where
  /-- The statement `go r.spawn(...)` of the launcher has not run for this task. -/
  | start
  /-- At `if err := rt.ctx.Err(); err != context.Canceled`. -/
  | check
  /-- At the `select`. -/
  | select
  /-- At `respCh <- ...` in the chosen case, with the value to send. -/
  | send (x : response)
  /-- At `close(subChan)`. -/
  | close
  /-- At the deferred `wg.Done()`. -/
  | done
  /-- The call has returned. -/
  | finished
  deriving DecidableEq, Repr

/-- Where the goroutine that calls `rt.task()` stands. -/
inductive WorkPc where
  /-- Not started. -/
  | idle
  /-- Inside `rt.task()`, or at the send on `subChan`. -/
  | running
  /-- The send on `subChan` is done and the goroutine has ended. -/
  | returned
  deriving DecidableEq, Repr

/-- One call `r.spawn(rt, runnerId, respCh, wg)` with the goroutine it may
start and its channel `subChan` (capacity 1). -/
structure Spawn where
  runnerId : String
  rt : RunnerTask
  pc : Pc
  work : WorkPc
  subBuf : Option response
  subClosed : Bool
  deriving DecidableEq, Repr

/-- What a step of a `spawn` call does outside its own variables. -/
inductive Effect where
  | skip
  /-- A send on `respCh`. -/
  | push (x : response)
  /-- The call `wg.Done()`. -/
  | wgDone
  /-- A panic, which ends the program. -/
  | crash
  deriving DecidableEq, Repr

/-- The steps of one `spawn` call and of its context. -/
inductive SpawnAct where
  /-- The launcher runs `go r.spawn(...)` for the task. -/
  | begin
  /-- Line 127: the test of `rt.ctx.Err()`, and the `go func` when it passes. -/
  | check
  /-- Lines 129 to 135: `rt.task()` returns and its result is sent on `subChan`. -/
  | work
  /-- The `select` takes `case <-rt.ctx.Done()`. -/
  | selCtx
  /-- The `select` takes `case subResp := <-subChan`. -/
  | selSub
  /-- The send `respCh <- ...` of the chosen case. -/
  | send
  /-- Line 152: `close(subChan)`. -/
  | close
  /-- The deferred `wg.Done()`. -/
  | done
  /-- The deadline of the context elapses. -/
  | deadline
  /-- An ancestor of the context is cancelled. -/
  | parentCancel
  deriving DecidableEq, Repr

/-- One step of a `spawn` call.  `respClosed` and `respFull` describe
`respCh` at that moment.  The result is `none` when the step cannot be
taken (wrong place, or a channel operation that blocks). -/
def spawn (g : Spawn) (respClosed respFull : Bool) : SpawnAct → Option (Spawn × Effect)
  | .begin =>
    match g.pc with
    | .start => some ({ g with pc := .check }, .skip)
    | _ => none
  | .check =>
    match g.pc with
    | .check =>
      if g.rt.ctx.err = some .Canceled then some ({ g with pc := .select }, .skip)
      else some ({ g with pc := .select, work := .running }, .skip)
    | _ => none
  | .work =>
    match g.work, g.rt.task.ret with
    | .running, some (v, e) =>
      if g.subClosed then some (g, .crash)
      else
        match g.subBuf with
        | none =>
          some ({ g with work := .returned,
                         subBuf := some { key := g.runnerId, Value := v, Error := e } }, .skip)
        | some _ => none
    | _, _ => none
  | .selCtx =>
    match g.pc, g.rt.ctx.err with
    | .select, some e =>
      some ({ g with pc := .send { key := g.runnerId, Value := .nil, Error := some e } }, .skip)
    | _, _ => none
  | .selSub =>
    match g.pc, g.subBuf with
    | .select, some x => some ({ g with pc := .send x, subBuf := none }, .skip)
    | _, _ => none
  | .send =>
    match g.pc with
    | .send x =>
      if respClosed then some (g, .crash)
      else if respFull then none
      else some ({ g with pc := .close }, .push x)
    | _ => none
  | .close =>
    match g.pc with
    | .close =>
      if g.subClosed then some (g, .crash)
      else some ({ g with pc := .done, subClosed := true }, .skip)
    | _ => none
  | .done =>
    match g.pc with
    | .done => some ({ g with pc := .finished }, .wgDone)
    | _ => none
  | .deadline =>
    match g.rt.ctx.err, g.rt.ctx.canExpire with
    | none, true => some ({ g with rt := { g.rt with ctx := g.rt.ctx.expire } }, .skip)
    | _, _ => none
  | .parentCancel =>
    match g.rt.ctx.err, g.rt.ctx.canCancel with
    | none, true => some ({ g with rt := { g.rt with ctx := g.rt.ctx.cancel } }, .skip)
    | _, _ => none

/-- The assignment `responses[r.key] = r` on a map kept as a list. -/
def mapSet (m : List (String × response)) (x : response) : List (String × response) :=
  (x.key, x) :: m.filter (fun p => p.1 != x.key)

/-- The read `responses[k]`. -/
def mapGet (m : List (String × response)) (k : String) : Option response :=
  (m.find? (fun p => p.1 == k)).map Prod.snd

/-- The state of one call of `Run`. -/
structure RunState where
  /-- One entry for each entry of `r.tasks` when `Run` was called. -/
  spawns : List Spawn
  /-- The local `taskLen`, the capacity of `respCh`. -/
  taskLen : Nat
  /-- The values buffered in `respCh`, oldest first. -/
  respCh : List response
  respClosed : Bool
  /-- The counter of the `sync.WaitGroup`. -/
  wg : Nat
  /-- Whether `exitChan` is closed. -/
  exitClosed : Bool
  /-- The local map `responses`. -/
  responses : List (String × response)
  /-- Whether `Run` has returned `responses`. -/
  returned : Bool
  /-- Whether a goroutine has panicked. -/
  panicked : Bool
  deriving DecidableEq, Repr

/-- The steps of `Run`. -/
inductive Action where
  /-- A step of the `spawn` call for the task named `k`. -/
  | spawn (k : String) (a : SpawnAct)
  /-- Lines 102 and 103: `wg.Wait()` returns and `exitChan` is closed. -/
  | wait
  /-- Lines 109 and 110: the collector receives from `respCh`. -/
  | recv
  /-- Lines 112 to 119: the collector receives from `exitChan`, leaves the
  loop, and `Run` returns; the deferred `close(respCh)` runs. -/
  | exit
  deriving DecidableEq, Repr

/-- The `spawn` call of a task before the launcher has started it. -/
def Spawn.fresh (runnerId : String) (rt : RunnerTask) : Spawn :=
  { runnerId := runnerId, rt := rt, pc := .start, work := .idle, subBuf := none,
    subClosed := false }

/-- The state when `Run` is entered: lines 87 to 95. -/
def Runner.start (r : Runner) : RunState :=
  { spawns := r.tasks.map (fun p => Spawn.fresh p.1 p.2)
    taskLen := r.tasks.length
    respCh := []
    respClosed := false
    wg := r.tasks.length
    exitClosed := false
    responses := []
    returned := false
    panicked := false }

/-- The `spawn` call of the task named `k`. -/
def RunState.getSpawn (s : RunState) (k : String) : Option Spawn :=
  s.spawns.find? (fun g => g.runnerId == k)

/-- Replace the entry of the task named `g.runnerId` by `g`. -/
def putSpawn (l : List Spawn) (g : Spawn) : List Spawn :=
  l.map (fun x => if x.runnerId = g.runnerId then g else x)

/-- Store the new state of a `spawn` call. -/
def RunState.setSpawn (s : RunState) (g : Spawn) : RunState :=
  { s with spawns := putSpawn s.spawns g }

/-- Apply the effect of a `spawn` step to the shared state. -/
def RunState.apply (s : RunState) : Effect → RunState
  | .skip => s
  | .push x => { s with respCh := s.respCh ++ [x] }
  | .wgDone => { s with wg := s.wg - 1 }
  | .crash => { s with panicked := true }

/-- One step of the program; `none` when the action is not enabled.  After
a panic nothing runs. -/
def step (s : RunState) (a : Action) : Option RunState :=
  if s.panicked then none
  else
    match a with
    | .spawn k b =>
      match s.getSpawn k with
      | none => none
      | some g =>
        match spawn g s.respClosed (decide (s.taskLen ≤ s.respCh.length)) b with
        | none => none
        | some (g', eff) => some ((s.setSpawn g').apply eff)
    | .wait =>
      if s.wg = 0 ∧ s.exitClosed = false ∧ s.spawns.all (fun g => g.pc != .start) then
        some { s with exitClosed := true }
      else none
    | .recv =>
      if s.returned then none
      else
        match s.respCh with
        | [] => none
        | x :: rest => some { s with respCh := rest, responses := mapSet s.responses x }
    | .exit =>
      if s.returned = false ∧ s.exitClosed = true then
        some { s with returned := true, respClosed := true }
      else none

/-- Run a schedule from a state. -/
def exec : RunState → List Action → Option RunState
  | s, [] => some s
  | s, a :: as =>
    match step s a with
    | none => none
    | some s' => exec s' as

/-- The method `Run` under a schedule: when the schedule makes `Run` return,
the runner after the call (line 117 gives it a new empty map) and the
returned mapping. -/
def Runner.Run (r : Runner) (sched : List Action) :
    Option (Runner × List (String × response)) :=
  match exec r.start sched with
  | none => none
  | some s => if s.returned then some ({ tasks := [] }, s.responses) else none

/-- All steps of the `spawn` call of `k` in the order of a run in which the
work function returns first. -/
def viaWork (k : String) : List Action :=
  [.spawn k .begin, .spawn k .check, .spawn k .work, .spawn k .selSub,
   .spawn k .send, .spawn k .close, .spawn k .done]

/-- All steps of the `spawn` call of `k` when the context is done and the
work function is not started. -/
def viaCtx (k : String) : List Action :=
  [.spawn k .begin, .spawn k .check, .spawn k .selCtx,
   .spawn k .send, .spawn k .close, .spawn k .done]

/-! ## The runners of `runner_test.go` -/

/-- The work function `func() (any, error) { return "here", nil }`. -/
def fnHere : RunnerFunc := { ret := some (.str "here", none) }

/-- The work function `func() (any, error) { return 1, nil }`. -/
def fnOne : RunnerFunc := { ret := some (.int 1, none) }

/-- The runner of `TestRunner_AddTask`. -/
def runnerOne : Runner := (NewRunner.AddTask fnHere "test").1

/-- The runner of `TestRunner_AddMultipleTasksWithTimeoutTimeout`. -/
def runnerTimeout : Runner :=
  ((NewRunner.AddTask fnHere "test").1.AddTaskWithTimeout fnOne "test2" Background 1000000000).1

/-! ## Invariants of a run -/

/-- The places after the send on `respCh`. -/
def Pc.pastSend : Pc → Bool
  | .close => true
  | .done => true
  | .finished => true
  | _ => false

/-- How many sends on `respCh` a `spawn` call at this place has made. -/
def Pc.sent (pc : Pc) : Nat := if pc.pastSend then 1 else 0

/-- Whether the `spawn` call still owes its `wg.Done()`. -/
def Pc.pending : Pc → Nat
  | .finished => 0
  | _ => 1

/-- How many values keyed `k` are buffered in the channel. -/
def keyCount (k : String) (l : List response) : Nat := l.countP (fun x => x.key == k)

/-- How many entries of the map have key `k`. -/
def mapCount (k : String) (m : List (String × response)) : Nat := m.countP (fun p => p.1 == k)

/-- The two values a `spawn` call can report: the error of its context once
the context is done, with no value, or what its work function returned once
the goroutine of the work function has handed it over. -/
def Good (g : Spawn) (x : response) : Prop :=
  x.key = g.runnerId ∧
  ((∃ e, g.rt.ctx.err = some e ∧ x = { key := g.runnerId, Value := .nil, Error := some e }) ∨
   (g.work = .returned ∧
      ∃ v e, g.rt.task.ret = some (v, e) ∧ x = { key := g.runnerId, Value := v, Error := e }))

/-- What holds of one `spawn` call at every moment. -/
structure Spawn.Inv (g : Spawn) : Prop where
  early : g.pc = .start ∨ g.pc = .check → g.work = .idle
  empty : g.work ≠ .returned → g.subBuf = none
  closed : g.subClosed = true ↔ (g.pc = .done ∨ g.pc = .finished)
  buffered : ∀ x, g.subBuf = some x →
    ∃ v e, g.rt.task.ret = some (v, e) ∧ x = { key := g.runnerId, Value := v, Error := e }
  sending : ∀ x, g.pc = .send x → Good g x

/-- What holds of a run at every moment. -/
structure RunState.Inv (s : RunState) : Prop where
  nodup : (s.spawns.map Spawn.runnerId).Nodup
  each : ∀ g ∈ s.spawns, g.Inv
  cap : s.taskLen = s.spawns.length
  chan : ∀ x ∈ s.respCh, ∃ g ∈ s.spawns, Good g x
  coll : ∀ p ∈ s.responses, p.1 = p.2.key ∧ ∃ g ∈ s.spawns, Good g p.2
  once : ∀ g ∈ s.spawns,
    keyCount g.runnerId s.respCh + mapCount g.runnerId s.responses = g.pc.sent
  total : s.respCh.length + s.responses.length = (s.spawns.map (fun g => g.pc.sent)).sum
  count : s.wg = (s.spawns.map (fun g => g.pc.pending)).sum
  exitWg : s.exitClosed = true → s.wg = 0
  retExit : s.returned = true → s.exitClosed = true
  closedRet : s.respClosed = s.returned

/-- The number of sends on `respCh` in an effect. -/
def Effect.sends : Effect → Nat
  | .push _ => 1
  | _ => 0

/-- The values an effect sends on `respCh`. -/
def Effect.pushed : Effect → List response
  | .push x => [x]
  | _ => []

/-- The number of calls of `wg.Done()` in an effect. -/
def Effect.dones : Effect → Nat
  | .wgDone => 1
  | _ => 0

/-- The states a schedule leads to from the entry of `Run`. -/
def Reach (r : Runner) (s : RunState) : Prop := ∃ sched, exec r.start sched = some s

/-- A context that is not done and that nothing but its own cancel function
can fire: what `AddTask` creates. -/
def Context.Quiet (c : Context) : Prop :=
  c.err = none ∧ c.canExpire = false ∧ c.canCancel = false

/-- A `spawn` call whose context was cancelled before its work function
could be started. -/
def Spawn.Skipped (g : Spawn) : Prop :=
  g.rt.ctx.err = some .Canceled ∧ g.work = .idle

/-- `Reports r k X`: what it means that `Run` on the registry `r` reports the
Result `X` for the task `k`.  On every schedule, at every moment, `X` is the
only Result keyed `k` in the mapping `responses` and in the channel `respCh`,
and once `Run` has returned `X` has been put on `respCh` (it is in the mapping,
or still in the channel); the mapping `Run` returns holds nothing else under
`k`; and there is a schedule on which the collector records `X`. -/
def Reports (r : Runner) (k : String) (X : response) : Prop :=
  (∀ sched s, exec r.start sched = some s →
    (∀ x, mapGet s.responses k = some x → x = X) ∧
    (∀ x ∈ s.respCh, x.key = k → x = X) ∧
    (s.returned = true → X ∈ s.respCh ∨ mapGet s.responses k = some X)) ∧
  (∀ sched r' m x, r.Run sched = some (r', m) → mapGet m k = some x → x = X) ∧
  (∃ sched s, exec r.start sched = some s ∧ mapGet s.responses k = some X)

/-- `Calm k sched`: on the schedule no deadline of the task `k` elapses and no
ancestor of its context is cancelled, so that nothing fires its signal during
the run. -/
def Calm (k : String) (sched : List Action) : Prop :=
  ∀ a ∈ sched, a ≠ .spawn k .deadline ∧ a ≠ .spawn k .parentCancel

/-- `ReportsCalm r k X`: the same as `Reports r k X` on the schedules that
are calm for `k`. -/
def ReportsCalm (r : Runner) (k : String) (X : response) : Prop :=
  (∀ sched s, Calm k sched → exec r.start sched = some s →
    (∀ x, mapGet s.responses k = some x → x = X) ∧
    (∀ x ∈ s.respCh, x.key = k → x = X) ∧
    (s.returned = true → X ∈ s.respCh ∨ mapGet s.responses k = some X)) ∧
  (∀ sched r' m x, Calm k sched → r.Run sched = some (r', m) → mapGet m k = some x → x = X) ∧
  (∃ sched s, Calm k sched ∧ exec r.start sched = some s ∧ mapGet s.responses k = some X)

/-- `NeverStarted r k`: on no schedule of `Run` on `r` is the work function
of the task `k` invoked. -/
def NeverStarted (r : Runner) (k : String) : Prop :=
  ∀ sched s, exec r.start sched = some s →
    ∀ g ∈ s.spawns, g.runnerId = k → g.work = .idle

/-- The runner of `TestRunner_AddMultipleTasks`. -/
def runnerTwo : Runner := ((NewRunner.AddTask fnHere "test").1.AddTask fnOne "test2").1

/-- A runner with one task whose timeout of zero has elapsed when it is
registered. -/
def runnerExpired : Runner := (NewRunner.AddTaskWithTimeout fnOne "test2" Background 0).1

/-- The schedule of `TestRunner_AddMultipleTasksWithTimeoutTimeout`: `test`
completes; the deadline of `test2` elapses while its work function is still
running, `spawn` reports `DeadlineExceeded` and closes `subChan`; `Run`
returns; then the work function of `test2` returns. -/
def schedTimeout : List Action :=
  viaWork "test" ++ [.recv] ++
  [.spawn "test2" .begin, .spawn "test2" .check, .spawn "test2" .deadline,
   .spawn "test2" .selCtx, .spawn "test2" .send, .spawn "test2" .close,
   .spawn "test2" .done, .recv, .wait, .exit] ++
  [.spawn "test2" .work]

/-! ## Time between the calls, and the two halves of a timeout -/

/-- The deadline of the registered task `taskName` elapses between two calls
on the runner: a step of the environment.  With a small duration this is
what has happened by the time `AddTaskWithTimeout` returns. -/
def Runner.elapse (r : Runner) (taskName : String) : Runner :=
  { tasks := r.tasks.map (fun p =>
      if p.1 = taskName ∧ p.2.ctx.canExpire = true then
        (p.1, { p.2 with ctx := p.2.ctx.expire })
      else p) }

/-- The places after the `select`. -/
def Pc.pastSelect : Pc → Bool
  | .send _ => true
  | .close => true
  | .done => true
  | .finished => true
  | _ => false

/-- `NoReturn k sched`: on the schedule the work function of the task `k` does
not return. -/
def NoReturn (k : String) (sched : List Action) : Prop :=
  ∀ a ∈ sched, a ≠ .spawn k .work

/-- `Settled k X s`: the `spawn` call of `k` has taken its `select`, and `X` is
the only value for `k` at its send, in the channel and in the mapping. -/
def Settled (k : String) (X : response) (s : RunState) : Prop :=
  (∀ g ∈ s.spawns, g.runnerId = k → g.pc.pastSelect = true ∧ ∀ x, g.pc = .send x → x = X) ∧
  (∀ x ∈ s.respCh, x.key = k → x = X) ∧
  (∀ p ∈ s.responses, p.1 = k → p.2 = X)

/-- `ReportsWhen ok r k X`: `Run` on `r` reports `X` for the task `k` on every
run whose steps up to a moment at which the `spawn` call of `k` has taken its
`select` satisfy `ok`, whatever happens after that moment.  On such a run, at
every later moment, `X` is the only Result keyed `k` in the mapping and in the
channel, and once `Run` has returned `X` has been put on the channel; the
mapping `Run` returns holds nothing else under `k`; and there is such a run
on which the collector records `X`. -/
def ReportsWhen (ok : List Action → Prop) (r : Runner) (k : String) (X : response) : Prop :=
  (∀ pre post s1 s, ok pre → exec r.start pre = some s1 →
    (∀ g ∈ s1.spawns, g.runnerId = k → g.pc.pastSelect = true) → exec s1 post = some s →
    (∀ x, mapGet s.responses k = some x → x = X) ∧
    (∀ x ∈ s.respCh, x.key = k → x = X) ∧
    (s.returned = true → X ∈ s.respCh ∨ mapGet s.responses k = some X)) ∧
  (∀ pre post s1 r' m x, ok pre → exec r.start pre = some s1 →
    (∀ g ∈ s1.spawns, g.runnerId = k → g.pc.pastSelect = true) →
    r.Run (pre ++ post) = some (r', m) → mapGet m k = some x → x = X) ∧
  (∃ pre s1, ok pre ∧ exec r.start pre = some s1 ∧
    (∀ g ∈ s1.spawns, g.runnerId = k → g.pc.pastSelect = true) ∧
    mapGet s1.responses k = some X)

/-- A schedule on the runner of `TestRunner_AddMultipleTasksWithTimeoutTimeout`
on which the deadline of `test2` elapses after the test of line 127 and before
its work function returns, and the `select` of its `spawn` call runs after
both and takes `subChan`. -/
def schedLateSelect : List Action :=
  viaWork "test" ++ [.recv] ++
  [.spawn "test2" .begin, .spawn "test2" .check, .spawn "test2" .deadline,
   .spawn "test2" .work, .spawn "test2" .selSub, .spawn "test2" .send,
   .spawn "test2" .close, .spawn "test2" .done, .recv, .wait, .exit]

/-- A schedule on the same runner on which the work function of `test2`
returns before its deadline elapses, and the `select` of its `spawn` call runs
after both and takes `ctx.Done()`. -/
def schedLateSelectDone : List Action :=
  viaWork "test" ++ [.recv] ++
  [.spawn "test2" .begin, .spawn "test2" .check, .spawn "test2" .work,
   .spawn "test2" .deadline, .spawn "test2" .selCtx, .spawn "test2" .send,
   .spawn "test2" .close, .spawn "test2" .done, .recv, .wait, .exit]

end GoTaskRunner

namespace GoTaskRunner

/-! ## Steps of one `spawn` call -/

theorem spawn_runnerId {g g' : Spawn} {c f : Bool} {a : SpawnAct} {eff : Effect}
    (h : spawn g c f a = some (g', eff)) : g'.runnerId = g.runnerId := by
  cases a <;> simp only [spawn] at h <;> (repeat' (split at h)) <;> simp at h <;>
    obtain ⟨rfl, rfl⟩ := h <;> rfl

theorem spawn_task {g g' : Spawn} {c f : Bool} {a : SpawnAct} {eff : Effect}
    (h : spawn g c f a = some (g', eff)) : g'.rt.task = g.rt.task := by
  cases a <;> simp only [spawn] at h <;> (repeat' (split at h)) <;> simp at h <;>
    obtain ⟨rfl, rfl⟩ := h <;> rfl

theorem spawn_good {g g' : Spawn} {c f : Bool} {a : SpawnAct} {eff : Effect}
    (h : spawn g c f a = some (g', eff)) (hg : g.Inv) (x : response) (hx : Good g x) :
    Good g' x := by
  obtain ⟨h1, h2, h3, h4, h5⟩ := hg
  cases a <;> simp only [spawn] at h <;> (repeat' (split at h)) <;> simp at h <;>
    obtain ⟨rfl, rfl⟩ := h <;> simp_all [Good, Context.expire, Context.cancel]

theorem spawn_inv {g g' : Spawn} {c f : Bool} {a : SpawnAct} {eff : Effect}
    (h : spawn g c f a = some (g', eff)) (hg : g.Inv) : g'.Inv := by
  obtain ⟨h1, h2, h3, h4, h5⟩ := hg
  cases a <;> simp only [spawn] at h <;> (repeat' (split at h)) <;> simp at h <;>
    obtain ⟨rfl, rfl⟩ := h <;> constructor <;> simp_all [Good, Context.expire, Context.cancel]
  obtain ⟨v, e, -, rfl⟩ := h4
  rfl

theorem spawn_sent {g g' : Spawn} {c f : Bool} {a : SpawnAct} {eff : Effect}
    (h : spawn g c f a = some (g', eff)) : g'.pc.sent = g.pc.sent + eff.sends := by
  cases a <;> simp only [spawn] at h <;> (repeat' (split at h)) <;> simp at h <;>
    obtain ⟨rfl, rfl⟩ := h <;> simp_all [Pc.sent, Pc.pastSend, Effect.sends]

theorem spawn_pending {g g' : Spawn} {c f : Bool} {a : SpawnAct} {eff : Effect}
    (h : spawn g c f a = some (g', eff)) : g'.pc.pending + eff.dones = g.pc.pending := by
  cases a <;> simp only [spawn] at h <;> (repeat' (split at h)) <;> simp at h <;>
    obtain ⟨rfl, rfl⟩ := h <;> simp_all [Pc.pending, Effect.dones]

theorem spawn_push {g g' : Spawn} {c f : Bool} {a : SpawnAct} {x : response}
    (h : spawn g c f a = some (g', .push x)) : g.pc = .send x ∧ c = false ∧ f = false := by
  cases a <;> simp only [spawn] at h <;> (repeat' (split at h)) <;> simp at h <;>
    simp_all

theorem spawn_quiet {g g' : Spawn} {c f : Bool} {a : SpawnAct} {eff : Effect}
    (h : spawn g c f a = some (g', eff)) (hq : g.rt.ctx.Quiet) : g'.rt.ctx.Quiet := by
  obtain ⟨q1, q2, q3⟩ := hq
  cases a <;> simp only [spawn] at h <;> (repeat' (split at h)) <;> simp at h <;>
    obtain ⟨rfl, rfl⟩ := h <;> simp_all [Context.Quiet]

theorem spawn_skipped {g g' : Spawn} {c f : Bool} {a : SpawnAct} {eff : Effect}
    (h : spawn g c f a = some (g', eff)) (hq : g.Skipped) : g'.Skipped := by
  obtain ⟨q1, q2⟩ := hq
  cases a <;> simp only [spawn] at h <;> (repeat' (split at h)) <;> simp at h <;>
    obtain ⟨rfl, rfl⟩ := h <;> simp_all [Spawn.Skipped]

/-! ## The list of `spawn` calls -/

theorem mem_putSpawn {l : List Spawn} {g x : Spawn} (h : x ∈ putSpawn l g) :
    x = g ∨ (x ∈ l ∧ x.runnerId ≠ g.runnerId) := by
  simp only [putSpawn, List.mem_map] at h
  obtain ⟨y, hy, rfl⟩ := h
  by_cases hc : y.runnerId = g.runnerId
  · left; simp [hc]
  · right; simp [hc, hy]

theorem putSpawn_mem_self {l : List Spawn} {g0 g : Spawn} (h0 : g0 ∈ l)
    (hid : g.runnerId = g0.runnerId) : g ∈ putSpawn l g := by
  simp only [putSpawn, List.mem_map]
  exact ⟨g0, h0, by simp [hid]⟩

theorem putSpawn_mem_other {l : List Spawn} {g x : Spawn} (hx : x ∈ l)
    (hne : x.runnerId ≠ g.runnerId) : x ∈ putSpawn l g := by
  simp only [putSpawn, List.mem_map]
  exact ⟨x, hx, by simp [hne]⟩

theorem putSpawn_ids (l : List Spawn) (g : Spawn) :
    (putSpawn l g).map Spawn.runnerId = l.map Spawn.runnerId := by
  induction l with
  | nil => rfl
  | cons y t ih =>
    simp only [putSpawn, List.map_cons] at ih ⊢
    rw [ih]
    by_cases hc : y.runnerId = g.runnerId <;> simp [hc]

theorem putSpawn_length (l : List Spawn) (g : Spawn) : (putSpawn l g).length = l.length := by
  simp [putSpawn]

theorem putSpawn_absent {l : List Spawn} {g : Spawn}
    (h : g.runnerId ∉ l.map Spawn.runnerId) : putSpawn l g = l := by
  induction l with
  | nil => rfl
  | cons y t ih =>
    simp only [List.map_cons, List.mem_cons, not_or] at h
    have := ih h.2
    simp only [putSpawn, List.map_cons] at this ⊢
    rw [this]
    simp [Ne.symm h.1]

theorem putSpawn_sum (w : Spawn → Nat) {l : List Spawn} {g0 g : Spawn}
    (nd : (l.map Spawn.runnerId).Nodup) (h0 : g0 ∈ l) (hid : g.runnerId = g0.runnerId) :
    ((putSpawn l g).map w).sum + w g0 = (l.map w).sum + w g := by
  induction l with
  | nil => simp at h0
  | cons y t ih =>
    simp only [List.map_cons, List.nodup_cons] at nd
    rcases List.mem_cons.1 h0 with rfl | ht
    · have hab : putSpawn t g = t := putSpawn_absent (by rw [hid]; exact nd.1)
      have : putSpawn (g0 :: t) g = g :: putSpawn t g := by simp [putSpawn, hid]
      rw [this, hab]
      simp only [List.map_cons, List.sum_cons]
      omega
    · have hne : y.runnerId ≠ g.runnerId := by
        intro hc
        apply nd.1
        rw [hc, hid]
        exact List.mem_map_of_mem _ ht
      have : putSpawn (y :: t) g = y :: putSpawn t g := by simp [putSpawn, hne]
      rw [this]
      have := ih nd.2 ht
      simp only [List.map_cons, List.sum_cons]
      omega

theorem spawn_eq_of_id {l : List Spawn} (nd : (l.map Spawn.runnerId).Nodup) {a b : Spawn}
    (ha : a ∈ l) (hb : b ∈ l) (h : a.runnerId = b.runnerId) : a = b :=
  List.inj_on_of_nodup_map nd ha hb h

theorem getSpawn_some {s : RunState} {k : String} {g : Spawn} (h : s.getSpawn k = some g) :
    g ∈ s.spawns ∧ g.runnerId = k := by
  simp only [RunState.getSpawn] at h
  refine ⟨List.mem_of_find?_eq_some h, ?_⟩
  have := List.find?_some h
  simpa using this

theorem apply_spawns (s : RunState) (eff : Effect) : (s.apply eff).spawns = s.spawns := by
  cases eff <;> rfl
theorem apply_taskLen (s : RunState) (eff : Effect) : (s.apply eff).taskLen = s.taskLen := by
  cases eff <;> rfl
theorem apply_respCh (s : RunState) (eff : Effect) :
    (s.apply eff).respCh = s.respCh ++ eff.pushed := by
  cases eff <;> simp [RunState.apply, Effect.pushed]
theorem apply_responses (s : RunState) (eff : Effect) :
    (s.apply eff).responses = s.responses := by
  cases eff <;> rfl
theorem apply_wg (s : RunState) (eff : Effect) : (s.apply eff).wg = s.wg - eff.dones := by
  cases eff <;> simp [RunState.apply, Effect.dones]
theorem apply_exitClosed (s : RunState) (eff : Effect) :
    (s.apply eff).exitClosed = s.exitClosed := by
  cases eff <;> rfl
theorem apply_returned (s : RunState) (eff : Effect) : (s.apply eff).returned = s.returned := by
  cases eff <;> rfl
theorem apply_respClosed (s : RunState) (eff : Effect) :
    (s.apply eff).respClosed = s.respClosed := by
  cases eff <;> rfl

/-! ## The invariant is kept by every step -/

theorem keyCount_append (k : String) (l : List response) (eff : Effect) :
    keyCount k (l ++ eff.pushed) = keyCount k l + keyCount k eff.pushed := by
  simp [keyCount, List.countP_append]

theorem keyCount_pushed_self {g : Spawn} {eff : Effect}
    (h : ∀ x, eff = .push x → x.key = g.runnerId) :
    keyCount g.runnerId eff.pushed = eff.sends := by
  cases eff <;> simp [keyCount, Effect.pushed, Effect.sends]
  rename_i x
  simp [h x rfl]

theorem keyCount_pushed_other {g : Spawn} {k : String} {eff : Effect}
    (h : ∀ x, eff = .push x → x.key = g.runnerId) (hne : k ≠ g.runnerId) :
    keyCount k eff.pushed = 0 := by
  cases eff <;> simp [keyCount, Effect.pushed]
  rename_i x
  rw [h x rfl]
  exact fun hc => hne hc.symm

theorem Inv_spawnStep {s : RunState} {k : String} {g0 g0' : Spawn} {a : SpawnAct}
    {eff : Effect} (hs : s.Inv) (hget : s.getSpawn k = some g0)
    (h : spawn g0 s.respClosed (decide (s.taskLen ≤ s.respCh.length)) a = some (g0', eff)) :
    ((s.setSpawn g0').apply eff).Inv := by
  obtain ⟨hmem, -⟩ := getSpawn_some hget
  have hid := spawn_runnerId h
  have hg0 := hs.each g0 hmem
  have hpush : ∀ x, eff = .push x → Good g0' x := by
    intro x hx
    subst hx
    exact spawn_good h hg0 x (hg0.sending x (spawn_push h).1)
  have hpushKey : ∀ x, eff = .push x → x.key = g0'.runnerId := fun x hx => (hpush x hx).1
  have hin : g0' ∈ putSpawn s.spawns g0' := putSpawn_mem_self hmem hid
  have hold : ∀ x, (∃ g ∈ s.spawns, Good g x) → ∃ g ∈ putSpawn s.spawns g0', Good g x := by
    rintro x ⟨g, hg, hgx⟩
    by_cases hc : g.runnerId = g0'.runnerId
    · have : g = g0 := spawn_eq_of_id hs.nodup hg hmem (hc.trans hid)
      subst this
      exact ⟨g0', hin, spawn_good h hg0 x hgx⟩
    · exact ⟨g, putSpawn_mem_other hg hc, hgx⟩
  constructor
  · simp only [apply_spawns, RunState.setSpawn]
    rw [putSpawn_ids]
    exact hs.nodup
  · simp only [apply_spawns, RunState.setSpawn]
    intro g hg
    rcases mem_putSpawn hg with rfl | ⟨hg, -⟩
    · exact spawn_inv h hg0
    · exact hs.each g hg
  · simp only [apply_spawns, apply_taskLen, RunState.setSpawn, putSpawn_length]
    exact hs.cap
  · simp only [apply_spawns, apply_respCh, RunState.setSpawn, List.mem_append]
    rintro x (hx | hx)
    · exact hold x (hs.chan x hx)
    · cases eff <;> simp [Effect.pushed] at hx
      subst hx
      exact ⟨g0', hin, hpush _ rfl⟩
  · simp only [apply_spawns, apply_responses, RunState.setSpawn]
    intro p hp
    exact ⟨(hs.coll p hp).1, hold _ (hs.coll p hp).2⟩
  · simp only [apply_spawns, apply_respCh, apply_responses, RunState.setSpawn]
    intro g hg
    rw [keyCount_append]
    rcases mem_putSpawn hg with rfl | ⟨hg, hne⟩
    · rw [keyCount_pushed_self hpushKey, spawn_sent h, hid]
      have := hs.once g0 hmem
      omega
    · rw [keyCount_pushed_other hpushKey hne]
      have := hs.once g hg
      omega
  · simp only [apply_spawns, apply_respCh, apply_responses, RunState.setSpawn,
      List.length_append]
    have h1 := putSpawn_sum (fun g => g.pc.sent) hs.nodup hmem hid
    have h2 := spawn_sent h
    have h3 := hs.total
    have h4 : eff.pushed.length = eff.sends := by cases eff <;> rfl
    simp only at h1
    omega
  · simp only [apply_spawns, apply_wg, RunState.setSpawn]
    have h1 := putSpawn_sum (fun g => g.pc.pending) hs.nodup hmem hid
    have h2 := spawn_pending h
    have h3 := hs.count
    simp only at h1
    omega
  · simp only [apply_exitClosed, apply_wg, RunState.setSpawn]
    intro he
    have := hs.exitWg he
    omega
  · simp only [apply_exitClosed, apply_returned, RunState.setSpawn]
    exact hs.retExit
  · simp only [apply_respClosed, apply_returned, RunState.setSpawn]
    exact hs.closedRet

theorem Pc.sent_le (pc : Pc) : pc.sent ≤ 1 := by
  unfold Pc.sent; split <;> omega

theorem mapCount_mapSet_self (m : List (String × response)) (x : response) :
    mapCount x.key (mapSet m x) = 1 := by
  simp [mapCount, mapSet, List.countP_cons, List.countP_filter]

theorem mapCount_mapSet_other (m : List (String × response)) (x : response) {k : String}
    (hne : x.key ≠ k) : mapCount k (mapSet m x) = mapCount k m := by
  simp only [mapCount, mapSet, List.countP_cons, List.countP_filter]
  have : (x.key == k) = false := by simpa using hne
  simp only [this, Bool.false_eq_true, if_false, Nat.add_zero]
  apply List.countP_congr
  intro p _
  simp only [Bool.and_eq_true, beq_iff_eq, bne_iff_ne, ne_eq]
  constructor
  · exact fun h => h.1
  · exact fun h => ⟨h, fun hc => hne (hc.symm.trans h)⟩

theorem mapSet_length {m : List (String × response)} {x : response}
    (h : mapCount x.key m = 0) : (mapSet m x).length = m.length + 1 := by
  have hall : ∀ p ∈ m, (p.1 != x.key) = true := by
    intro p hp
    simp only [mapCount, List.countP_eq_zero] at h
    have := h p hp
    simpa using this
  simp [mapSet, List.filter_eq_self.2 hall]

theorem Inv_recv {s : RunState} {x : response} {rest : List response} (hs : s.Inv)
    (hch : s.respCh = x :: rest) :
    ({ s with respCh := rest, responses := mapSet s.responses x } : RunState).Inv := by
  have hxmem : x ∈ s.respCh := by rw [hch]; exact List.mem_cons_self _ _
  obtain ⟨gx, hgx, hgood⟩ := hs.chan x hxmem
  have hkc : ∀ k, keyCount k s.respCh = (if x.key = k then 1 else 0) + keyCount k rest := by
    intro k
    rw [hch]
    simp only [keyCount, List.countP_cons, beq_iff_eq]
    omega
  have hzero : mapCount x.key s.responses = 0 := by
    have h1 := hs.once gx hgx
    have h2 := hkc gx.runnerId
    have h3 := Pc.sent_le gx.pc
    rw [if_pos hgood.1] at h2
    rw [hgood.1]
    omega
  constructor
  · exact hs.nodup
  · exact hs.each
  · exact hs.cap
  · intro y hy
    exact hs.chan y (by rw [hch]; exact List.mem_cons_of_mem _ hy)
  · intro p hp
    simp only [mapSet, List.mem_cons, List.mem_filter] at hp
    rcases hp with rfl | ⟨hp, -⟩
    · exact ⟨rfl, gx, hgx, hgood⟩
    · exact hs.coll p hp
  · intro g hg
    have h1 := hs.once g hg
    have h2 := hkc g.runnerId
    show keyCount g.runnerId rest + mapCount g.runnerId (mapSet s.responses x) = g.pc.sent
    by_cases hc : x.key = g.runnerId
    · rw [if_pos hc] at h2
      rw [← hc, mapCount_mapSet_self]
      rw [← hc] at h1 h2
      have h3 := Pc.sent_le g.pc
      omega
    · rw [if_neg hc] at h2
      rw [mapCount_mapSet_other _ _ hc]
      omega
  · show rest.length + (mapSet s.responses x).length =
      (s.spawns.map (fun g => g.pc.sent)).sum
    rw [mapSet_length hzero]
    have := hs.total
    rw [hch] at this
    simp only [List.length_cons] at this
    omega
  · exact hs.count
  · exact hs.exitWg
  · exact hs.retExit
  · exact hs.closedRet

theorem Inv_step {s s' : RunState} {a : Action} (hs : s.Inv) (h : step s a = some s') :
    s'.Inv := by
  unfold step at h
  split at h
  · simp at h
  · cases a with
    | spawn k b =>
      simp only at h
      split at h
      · simp at h
      · rename_i g0 hget
        split at h
        · simp at h
        · rename_i g0' eff hstep
          simp only [Option.some.injEq] at h
          subst h
          exact Inv_spawnStep hs hget hstep
    | wait =>
      simp only at h
      split at h
      · rename_i hc
        simp only [Option.some.injEq] at h
        subst h
        exact ⟨hs.nodup, hs.each, hs.cap, hs.chan, hs.coll, hs.once, hs.total, hs.count,
          fun _ => hc.1, fun hr => by simp, hs.closedRet⟩
      · simp at h
    | recv =>
      simp only at h
      split at h
      · simp at h
      · split at h
        · simp at h
        · rename_i x rest hch
          simp only [Option.some.injEq] at h
          subst h
          exact Inv_recv hs hch
    | exit =>
      simp only at h
      split at h
      · rename_i hc
        simp only [Option.some.injEq] at h
        subst h
        exact ⟨hs.nodup, hs.each, hs.cap, hs.chan, hs.coll, hs.once, hs.total, hs.count,
          hs.exitWg, fun _ => hc.2, rfl⟩
      · simp at h

theorem Inv_exec {s s' : RunState} {sched : List Action} (hs : s.Inv)
    (h : exec s sched = some s') : s'.Inv := by
  induction sched generalizing s with
  | nil =>
    simp only [exec, Option.some.injEq] at h
    exact h ▸ hs
  | cons a as ih =>
    simp only [exec] at h
    split at h
    · simp at h
    · rename_i s1 h1
      exact ih (Inv_step hs h1) h

theorem start_spawns_ids (r : Runner) :
    r.start.spawns.map Spawn.runnerId = r.tasks.map Prod.fst := by
  simp [Runner.start, Function.comp_def, Spawn.fresh]

theorem Inv_start {r : Runner} (hr : r.WF) : r.start.Inv := by
  have hpc : ∀ g ∈ r.start.spawns, g.pc = .start ∧ g.work = .idle ∧ g.subBuf = none ∧
      g.subClosed = false := by
    intro g hg
    simp only [Runner.start, List.mem_map] at hg
    obtain ⟨p, -, rfl⟩ := hg
    simp [Spawn.fresh]
  constructor
  · rw [start_spawns_ids]; exact hr
  · intro g hg
    obtain ⟨h1, h2, h3, h4⟩ := hpc g hg
    constructor <;> simp [h1, h2, h3, h4]
  · simp [Runner.start]
  · intro x hx
    simp [Runner.start] at hx
  · intro p hp
    simp [Runner.start] at hp
  · intro g hg
    simp [Runner.start, keyCount, mapCount, Pc.sent, Pc.pastSend, (hpc g hg).1]
  · simp [Runner.start, Function.comp_def, Pc.sent, Pc.pastSend, Spawn.fresh]
  · simp [Runner.start, Function.comp_def, Pc.pending, Spawn.fresh]
  · intro h
    simp [Runner.start] at h
  · intro h
    simp [Runner.start] at h
  · rfl

theorem Inv_reach {r : Runner} (hr : r.WF) {s : RunState} (h : Reach r s) : s.Inv := by
  obtain ⟨sched, hsched⟩ := h
  exact Inv_exec (Inv_start hr) hsched

/-! ## Schedules -/

theorem exec_append (s : RunState) (as bs : List Action) :
    exec s (as ++ bs) = (exec s as).bind (fun s' => exec s' bs) := by
  induction as generalizing s with
  | nil => rfl
  | cons a as ih =>
    simp only [List.cons_append, exec]
    cases step s a with
    | none => rfl
    | some s1 => exact ih s1

theorem step_spawn_inv {s s' : RunState} {k : String} {b : SpawnAct}
    (h : step s (.spawn k b) = some s') :
    ∃ g g' eff, s.getSpawn k = some g ∧
      spawn g s.respClosed (decide (s.taskLen ≤ s.respCh.length)) b = some (g', eff) ∧
      s' = (s.setSpawn g').apply eff := by
  unfold step at h
  split at h
  · simp at h
  · simp only at h
    split at h
    · simp at h
    · rename_i g hget
      split at h
      · simp at h
      · rename_i g' eff hstep
        simp only [Option.some.injEq] at h
        exact ⟨g, g', eff, hget, hstep, h.symm⟩

theorem step_spawns {s s' : RunState} {a : Action} (h : step s a = some s') :
    s'.spawns = s.spawns ∨
      ∃ k b g g' eff, a = .spawn k b ∧ s.getSpawn k = some g ∧
        spawn g s.respClosed (decide (s.taskLen ≤ s.respCh.length)) b = some (g', eff) ∧
        s'.spawns = putSpawn s.spawns g' := by
  cases a with
  | spawn k b =>
    obtain ⟨g, g', eff, hget, hstep, rfl⟩ := step_spawn_inv h
    exact Or.inr ⟨k, b, g, g', eff, rfl, hget, hstep, by simp [apply_spawns, RunState.setSpawn]⟩
  | wait =>
    left
    unfold step at h
    split at h
    · simp at h
    · simp only at h
      split at h
      · simp only [Option.some.injEq] at h; subst h; rfl
      · simp at h
  | recv =>
    left
    unfold step at h
    split at h
    · simp at h
    · simp only at h
      split at h
      · simp at h
      · split at h
        · simp at h
        · simp only [Option.some.injEq] at h; subst h; rfl
  | exit =>
    left
    unfold step at h
    split at h
    · simp at h
    · simp only at h
      split at h
      · simp only [Option.some.injEq] at h; subst h; rfl
      · simp at h

/-- A property of one `spawn` call that each of its steps keeps holds along every
schedule. -/
theorem exec_spawn_pred (P : Spawn → Prop)
    (hP : ∀ (g g' : Spawn) (c f : Bool) (a : SpawnAct) (eff : Effect),
      P g → spawn g c f a = some (g', eff) → P g')
    (k : String) {s s' : RunState} {sched : List Action}
    (h0 : ∀ g ∈ s.spawns, g.runnerId = k → P g) (h : exec s sched = some s') :
    ∀ g ∈ s'.spawns, g.runnerId = k → P g := by
  induction sched generalizing s with
  | nil =>
    simp only [exec, Option.some.injEq] at h
    exact h ▸ h0
  | cons a as ih =>
    simp only [exec] at h
    split at h
    · simp at h
    · rename_i s1 h1
      refine ih ?_ h
      rcases step_spawns h1 with heq | ⟨k', b, g0, g0', eff, -, hget, hstep, heq⟩
      · rw [heq]; exact h0
      · rw [heq]
        intro g hg hk
        rcases mem_putSpawn hg with rfl | ⟨hg, -⟩
        · obtain ⟨hmem, -⟩ := getSpawn_some hget
          exact hP g0 g _ _ _ _ (h0 g0 hmem ((spawn_runnerId hstep).symm.trans hk)) hstep
        · exact h0 g hg hk

/-! ## From the registry to the `spawn` calls -/

theorem get_some_mem {r : Runner} {k : String} {rt : RunnerTask} (h : r.get k = some rt) :
    (k, rt) ∈ r.tasks := by
  simp only [Runner.get, Option.map_eq_some'] at h
  obtain ⟨p, hp, rfl⟩ := h
  have h1 := List.mem_of_find?_eq_some hp
  have h2 := List.find?_some hp
  simp only [beq_iff_eq] at h2
  subst h2
  exact h1

theorem mem_get_some {r : Runner} (hr : r.WF) {k : String} {rt : RunnerTask}
    (h : (k, rt) ∈ r.tasks) : r.get k = some rt := by
  have hex : ∃ p, r.tasks.find? (fun p => p.1 == k) = some p := by
    cases hf : r.tasks.find? (fun p => p.1 == k) with
    | some p => exact ⟨p, rfl⟩
    | none =>
      rw [List.find?_eq_none] at hf
      have := hf _ h
      simp at this
  obtain ⟨p, hp⟩ := hex
  have h1 := List.mem_of_find?_eq_some hp
  have h2 := List.find?_some hp
  simp only [beq_iff_eq] at h2
  have : p = (k, rt) := List.inj_on_of_nodup_map hr h1 h h2
  simp [Runner.get, hp, this]

theorem get_isSome_iff_has (r : Runner) (k : String) : (r.get k).isSome = r.has k := by
  simp only [Runner.get, Runner.has, Option.isSome_map']
  rw [Bool.eq_iff_iff]
  simp [List.find?_isSome]

theorem start_getSpawn {r : Runner} {k : String} {rt : RunnerTask} (h : r.get k = some rt) :
    r.start.getSpawn k = some (Spawn.fresh k rt) := by
  simp only [Runner.get, Option.map_eq_some'] at h
  obtain ⟨p, hp, rfl⟩ := h
  have h2 := List.find?_some hp
  simp only [beq_iff_eq] at h2
  subst h2
  simp only [RunState.getSpawn, Runner.start, List.find?_map, Function.comp_def]
  have : (fun x : String × RunnerTask => (Spawn.fresh x.1 x.2).runnerId == p.1) =
      (fun x => x.1 == p.1) := rfl
  rw [this, hp]
  rfl

theorem start_spawn_rt {r : Runner} (hr : r.WF) {k : String} {rt : RunnerTask}
    (h : r.get k = some rt) : ∀ g ∈ r.start.spawns, g.runnerId = k → g.rt = rt := by
  intro g hg hk
  simp only [Runner.start, List.mem_map] at hg
  obtain ⟨p, hp, rfl⟩ := hg
  simp only [Spawn.fresh] at hk ⊢
  subst hk
  have := mem_get_some hr (show (p.1, p.2) ∈ r.tasks from hp)
  rw [this] at h
  simpa using h

theorem start_has_spawn {r : Runner} {k : String} {rt : RunnerTask} (h : r.get k = some rt)
    {s : RunState} (hs : Reach r s) : ∃ g ∈ s.spawns, g.runnerId = k := by
  obtain ⟨sched, hsched⟩ := hs
  have hids : s.spawns.map Spawn.runnerId = r.start.spawns.map Spawn.runnerId := by
    clear h
    generalize r.start = s0 at hsched
    induction sched generalizing s0 with
    | nil =>
      simp only [exec, Option.some.injEq] at hsched
      rw [hsched]
    | cons a as ih =>
      simp only [exec] at hsched
      split at hsched
      · simp at hsched
      · rename_i s1 h1
        rw [ih s1 hsched]
        rcases step_spawns h1 with heq | ⟨_, _, _, g', _, -, -, -, heq⟩
        · rw [heq]
        · rw [heq, putSpawn_ids]
  have hk : k ∈ s.spawns.map Spawn.runnerId := by
    rw [hids]
    exact List.mem_map.2 ⟨_, List.mem_of_find?_eq_some (start_getSpawn h), rfl⟩
  obtain ⟨g, hg, hgk⟩ := List.mem_map.1 hk
  exact ⟨g, hg, hgk⟩

/-! ## What is reported for a task -/

theorem mapGet_mem {m : List (String × response)} {k : String} {x : response}
    (h : mapGet m k = some x) : (k, x) ∈ m := by
  simp only [mapGet, Option.map_eq_some'] at h
  obtain ⟨p, hp, rfl⟩ := h
  have h1 := List.mem_of_find?_eq_some hp
  have h2 := List.find?_some hp
  simp only [beq_iff_eq] at h2
  subst h2
  exact h1

theorem mapGet_of_count {m : List (String × response)} {k : String}
    (h : 0 < mapCount k m) : ∃ x, mapGet m k = some x := by
  simp only [mapCount, List.countP_pos_iff] at h
  obtain ⟨p, hp, hk⟩ := h
  cases hf : m.find? (fun p => p.1 == k) with
  | some q => exact ⟨q.2, by simp [mapGet, hf]⟩
  | none =>
    rw [List.find?_eq_none] at hf
    exact absurd hk (hf p hp)

theorem keyCount_pos {l : List response} {k : String} (h : 0 < keyCount k l) :
    ∃ x ∈ l, x.key = k := by
  simp only [keyCount, List.countP_pos_iff] at h
  obtain ⟨x, hx, hk⟩ := h
  exact ⟨x, hx, by simpa using hk⟩

theorem good_of_chan {s : RunState} (hs : s.Inv) {g : Spawn} (hg : g ∈ s.spawns)
    {x : response} (hx : x ∈ s.respCh) (hk : x.key = g.runnerId) : Good g x := by
  obtain ⟨g1, hg1, hgood⟩ := hs.chan x hx
  have : g1 = g := spawn_eq_of_id hs.nodup hg1 hg (hgood.1.symm.trans hk)
  exact this ▸ hgood

theorem good_of_coll {s : RunState} (hs : s.Inv) {g : Spawn} (hg : g ∈ s.spawns)
    {x : response} (hx : mapGet s.responses g.runnerId = some x) : Good g x := by
  obtain ⟨hkey, g1, hg1, hgood⟩ := hs.coll _ (mapGet_mem hx)
  simp only at hkey hgood
  have : g1 = g := spawn_eq_of_id hs.nodup hg1 hg (hgood.1.symm.trans hkey.symm)
  exact this ▸ hgood

theorem sum_zero_mem {l : List Spawn} {w : Spawn → Nat} (h : (l.map w).sum = 0) {g : Spawn}
    (hg : g ∈ l) : w g = 0 := by
  induction l with
  | nil => simp at hg
  | cons y t ih =>
    simp only [List.map_cons, List.sum_cons] at h
    rcases List.mem_cons.1 hg with rfl | ht
    · omega
    · exact ih (by omega) ht

theorem sum_lt_length {l : List Spawn} {w : Spawn → Nat} (hw : ∀ g, w g ≤ 1) {g : Spawn}
    (hg : g ∈ l) (h0 : w g = 0) : (l.map w).sum < l.length := by
  have hle : ∀ t : List Spawn, (t.map w).sum ≤ t.length := by
    intro t
    induction t with
    | nil => simp
    | cons y t ih =>
      simp only [List.map_cons, List.sum_cons, List.length_cons]
      have := hw y
      omega
  induction l with
  | nil => simp at hg
  | cons y t ih =>
    simp only [List.map_cons, List.sum_cons, List.length_cons]
    rcases List.mem_cons.1 hg with rfl | ht
    · have := hle t
      omega
    · have := ih ht
      have := hw y
      omega

theorem finished_of_exitClosed {s : RunState} (hs : s.Inv) (he : s.exitClosed = true)
    {g : Spawn} (hg : g ∈ s.spawns) : g.pc = .finished := by
  have h0 := hs.exitWg he
  rw [hs.count] at h0
  have := sum_zero_mem h0 hg
  cases hpc : g.pc <;> simp [hpc, Pc.pending] at this ⊢

theorem send_enabled {s : RunState} (hs : s.Inv) {g : Spawn} (hg : g ∈ s.spawns)
    {x : response} (hpc : g.pc = .send x) :
    s.respClosed = false ∧ s.respCh.length < s.taskLen := by
  constructor
  · rw [hs.closedRet]
    cases hr : s.returned with
    | false => rfl
    | true =>
      have := finished_of_exitClosed hs (hs.retExit hr) hg
      rw [hpc] at this
      cases this
  · rw [hs.cap]
    have h1 := hs.total
    have h2 := sum_lt_length (l := s.spawns) (w := fun g => g.pc.sent)
      (fun g => Pc.sent_le g.pc) hg (by simp [hpc, Pc.sent, Pc.pastSend])
    omega

theorem start_spawn_eq {r : Runner} (hr : r.WF) {k : String} {rt : RunnerTask}
    (h : r.get k = some rt) : ∀ g ∈ r.start.spawns, g.runnerId = k → g = Spawn.fresh k rt := by
  intro g hg hk
  have hrt := start_spawn_rt hr h g hg hk
  simp only [Runner.start, List.mem_map] at hg
  obtain ⟨p, -, rfl⟩ := hg
  simp only [Spawn.fresh] at hk hrt ⊢
  rw [hk, hrt]

/-! ## Runs that record a result -/

theorem find_putSpawn {l : List Spawn} {k : String} {g g' : Spawn}
    (hget : l.find? (fun x => x.runnerId == k) = some g) (hid : g'.runnerId = k) :
    (putSpawn l g').find? (fun x => x.runnerId == k) = some g' := by
  induction l with
  | nil => simp at hget
  | cons y t ih =>
    simp only [putSpawn, List.map_cons] at ih ⊢
    by_cases hy : y.runnerId = k
    · simp [hy, hid]
    · have hy' : ¬ y.runnerId = g'.runnerId := by rw [hid]; exact hy
      rw [List.find?_cons_of_neg _ (by simpa using hy)] at hget
      rw [if_neg hy', List.find?_cons_of_neg _ (by simpa using hy)]
      exact ih hget

theorem getSpawn_step {s : RunState} {k : String} {g g' : Spawn} (eff : Effect)
    (hget : s.getSpawn k = some g) (hid : g'.runnerId = k) :
    ((s.setSpawn g').apply eff).getSpawn k = some g' := by
  simp only [RunState.getSpawn, apply_spawns, RunState.setSpawn]
  exact find_putSpawn hget hid

theorem step_spawn_of {s : RunState} {k : String} {g : Spawn} (a : SpawnAct) (g' : Spawn)
    (eff : Effect) (hp : s.panicked = false) (hget : s.getSpawn k = some g)
    (h : spawn g s.respClosed (decide (s.taskLen ≤ s.respCh.length)) a = some (g', eff)) :
    step s (.spawn k a) = some ((s.setSpawn g').apply eff) := by
  simp [step, hp, hget, h]

/-- A step of the `spawn` call of `k` that touches nothing shared. -/
theorem step_skip {s : RunState} {k : String} {g : Spawn} (a : SpawnAct) (g' : Spawn)
    (hp : s.panicked = false) (hget : s.getSpawn k = some g)
    (h : spawn g s.respClosed (decide (s.taskLen ≤ s.respCh.length)) a = some (g', .skip))
    (hid : g'.runnerId = k) :
    ∃ s', step s (.spawn k a) = some s' ∧ s'.getSpawn k = some g' ∧ s'.panicked = false ∧
      s'.returned = s.returned ∧ s'.respClosed = s.respClosed ∧ s'.respCh = s.respCh ∧
      s'.responses = s.responses ∧ s'.taskLen = s.taskLen :=
  ⟨_, step_spawn_of a g' .skip hp hget h, getSpawn_step .skip hget hid, hp, rfl, rfl, rfl, rfl,
    rfl⟩

/-- From the entry of `Run`, the launcher starts the task `k` and its `spawn`
call reaches the `select` with the context test of line 127 done. -/
theorem exec_to_select {r : Runner} {k : String} {rt : RunnerTask} (hget : r.get k = some rt) :
    ∃ s, exec r.start [.spawn k .begin, .spawn k .check] = some s ∧
      s.getSpawn k = some ⟨k, rt, .select,
        if rt.ctx.err = some .Canceled then .idle else .running, none, false⟩ ∧
      s.panicked = false ∧ s.returned = false ∧ s.respClosed = false ∧ s.respCh = [] ∧
      s.responses = [] ∧ s.taskLen = r.tasks.length := by
  obtain ⟨s1, e1, h1, p1, r1, c1, ch1, m1, l1⟩ :=
    step_skip .begin ⟨k, rt, .check, .idle, none, false⟩ (show r.start.panicked = false from rfl)
      (start_getSpawn hget) rfl rfl
  obtain ⟨s2, e2, h2, p2, r2, c2, ch2, m2, l2⟩ :=
    step_skip .check
      ⟨k, rt, .select, if rt.ctx.err = some .Canceled then .idle else .running, none, false⟩
      p1 h1 (by simp only [spawn]; split <;> simp_all) rfl
  refine ⟨s2, by simp only [exec, e1, e2], h2, p2, ?_, ?_, ?_, ?_, ?_⟩
  · rw [r2, r1]; rfl
  · rw [c2, c1]; rfl
  · rw [ch2, ch1]; rfl
  · rw [m2, m1]; rfl
  · rw [l2, l1]; rfl

theorem tasks_pos {r : Runner} {k : String} {rt : RunnerTask} (hget : r.get k = some rt) :
    0 < r.tasks.length :=
  List.length_pos_of_mem (get_some_mem hget)

/-- From a `spawn` call at the send of `x`, with room in `respCh` and the
collector still in its loop: the send and the receive record `x`. -/
theorem exec_send_recv {s : RunState} {k : String} {g : Spawn} {x : response}
    (hget : s.getSpawn k = some g) (hpc : g.pc = .send x) (hkey : x.key = k)
    (hp : s.panicked = false) (hr : s.returned = false) (hc : s.respClosed = false)
    (hch : s.respCh = []) (hm : s.responses = []) (hlen : 0 < s.taskLen) :
    ∃ s', exec s [.spawn k .send, .recv] = some s' ∧ mapGet s'.responses k = some x ∧
      s'.returned = false ∧ s'.panicked = false := by
  have e1 := step_spawn_of .send
    ⟨g.runnerId, g.rt, .close, g.work, g.subBuf, g.subClosed⟩ (.push x) hp hget
    (by
      have : ¬ s.taskLen ≤ 0 := by omega
      simp [spawn, hpc, hc, hch, this])
  obtain ⟨s1, hs1⟩ : ∃ s1, s1 =
      (s.setSpawn ⟨g.runnerId, g.rt, .close, g.work, g.subBuf, g.subClosed⟩).apply (.push x) :=
    ⟨_, rfl⟩
  rw [← hs1] at e1
  have f1 : s1.panicked = false := by rw [hs1]; exact hp
  have f2 : s1.returned = false := by rw [hs1]; exact hr
  have f3 : s1.respCh = [x] := by
    rw [hs1, apply_respCh]; simp [RunState.setSpawn, hch, Effect.pushed]
  have f4 : s1.responses = [] := by rw [hs1, apply_responses]; exact hm
  have e2 : step s1 .recv =
      some { s1 with respCh := [], responses := mapSet s1.responses x } := by
    simp [step, f1, f2, f3]
  refine ⟨{ s1 with respCh := [], responses := mapSet s1.responses x }, ?_, ?_, f2, f1⟩
  · simp only [exec, e1, e2]
  · simp [f4, mapSet, mapGet, hkey]

/-- A run in which the work function is started, returns, and its result is
recorded: possible whenever the context is not `Canceled` at line 127. -/
theorem record_work {r : Runner} {k : String} {rt : RunnerTask} {v : GoAny}
    {e : Option GoError} (hget : r.get k = some rt) (hc : rt.ctx.err ≠ some .Canceled)
    (hret : rt.task.ret = some (v, e)) :
    ∃ s, exec r.start ([.spawn k .begin, .spawn k .check] ++
        ([.spawn k .work, .spawn k .selSub] ++ [.spawn k .send, .recv])) = some s ∧
      mapGet s.responses k = some { key := k, Value := v, Error := e } ∧
      s.returned = false ∧ s.panicked = false := by
  obtain ⟨s2, e12, h2, p2, r2, c2, ch2, m2, l2⟩ := exec_to_select hget
  rw [if_neg hc] at h2
  obtain ⟨s3, e3, h3, p3, r3, c3, ch3, m3, l3⟩ :=
    step_skip .work ⟨k, rt, .select, .returned, some { key := k, Value := v, Error := e }, false⟩
      p2 h2 (by simp [spawn, hret]) rfl
  obtain ⟨s4, e4, h4, p4, r4, c4, ch4, m4, l4⟩ :=
    step_skip .selSub ⟨k, rt, .send { key := k, Value := v, Error := e }, .returned, none, false⟩
      p3 h3 (by simp [spawn]) rfl
  obtain ⟨s', e56, hres, hr', hp'⟩ := exec_send_recv h4 rfl rfl p4 (by rw [r4, r3, r2])
    (by rw [c4, c3, c2]) (by rw [ch4, ch3, ch2]) (by rw [m4, m3, m2])
    (by rw [l4, l3, l2]; exact tasks_pos hget)
  refine ⟨s', ?_, hres, hr', hp'⟩
  rw [exec_append, e12, Option.bind, exec_append]
  simp only [exec, e3, e4, Option.bind]
  exact e56

/-- A run in which the `select` takes the context case and that result is
recorded: possible whenever the context is done. -/
theorem record_ctx {r : Runner} {k : String} {rt : RunnerTask} {err : GoError}
    (hget : r.get k = some rt) (herr : rt.ctx.err = some err) :
    ∃ s, exec r.start ([.spawn k .begin, .spawn k .check] ++
        ([.spawn k .selCtx] ++ [.spawn k .send, .recv])) = some s ∧
      mapGet s.responses k = some { key := k, Value := .nil, Error := some err } ∧
      s.returned = false ∧ s.panicked = false := by
  obtain ⟨s2, e12, h2, p2, r2, c2, ch2, m2, l2⟩ := exec_to_select hget
  obtain ⟨s3, e3, h3, p3, r3, c3, ch3, m3, l3⟩ :=
    step_skip .selCtx ⟨k, rt, .send { key := k, Value := .nil, Error := some err },
      if rt.ctx.err = some .Canceled then .idle else .running, none, false⟩
      p2 h2 (by simp [spawn, herr]) rfl
  obtain ⟨s', e45, hres, hr', hp'⟩ := exec_send_recv h3 rfl rfl p3 (by rw [r3, r2])
    (by rw [c3, c2]) (by rw [ch3, ch2]) (by rw [m3, m2])
    (by rw [l3, l2]; exact tasks_pos hget)
  refine ⟨s', ?_, hres, hr', hp'⟩
  rw [exec_append, e12, Option.bind, exec_append]
  simp only [exec, e3, Option.bind]
  exact e45

/-! ## What `Run` reports for a task -/

theorem exec_ids {s s' : RunState} {sched : List Action} (h : exec s sched = some s') :
    s'.spawns.map Spawn.runnerId = s.spawns.map Spawn.runnerId := by
  induction sched generalizing s with
  | nil =>
    simp only [exec, Option.some.injEq] at h
    rw [h]
  | cons a as ih =>
    simp only [exec] at h
    split at h
    · simp at h
    · rename_i s1 h1
      rw [ih h]
      rcases step_spawns h1 with heq | ⟨_, _, _, g', _, -, -, -, heq⟩
      · rw [heq]
      · rw [heq, putSpawn_ids]

/-- A property of the `spawn` call of `k` that every step keeps, except the
firing of its context, holds along every schedule that is calm for `k`. -/
theorem exec_spawn_calm (P : Spawn → Prop)
    (hP : ∀ (g g' : Spawn) (c f : Bool) (a : SpawnAct) (eff : Effect),
      a ≠ .deadline → a ≠ .parentCancel → P g → spawn g c f a = some (g', eff) → P g')
    (k : String) {s s' : RunState} {sched : List Action}
    (h0 : ∀ g ∈ s.spawns, g.runnerId = k → P g) (hcalm : Calm k sched)
    (h : exec s sched = some s') :
    ∀ g ∈ s'.spawns, g.runnerId = k → P g := by
  induction sched generalizing s with
  | nil =>
    simp only [exec, Option.some.injEq] at h
    exact h ▸ h0
  | cons a as ih =>
    simp only [exec] at h
    split at h
    · simp at h
    · rename_i s1 h1
      refine ih ?_ (fun b hb => hcalm b (List.mem_cons_of_mem _ hb)) h
      rcases step_spawns h1 with heq | ⟨k', b, g0, g0', eff, ha, hget, hstep, heq⟩
      · rw [heq]; exact h0
      · rw [heq]
        intro g hg hk
        rcases mem_putSpawn hg with rfl | ⟨hg, -⟩
        · obtain ⟨hmem, hk'⟩ := getSpawn_some hget
          have hid := spawn_runnerId hstep
          have hkk : k' = k := by rw [← hk', ← hid, hk]
          have hc := hcalm a (List.mem_cons_self _ _)
          rw [ha, hkk] at hc
          refine hP g0 g _ _ b _ ?_ ?_ (h0 g0 hmem (hid.symm.trans hk)) hstep
          · rintro rfl; exact hc.1 rfl
          · rintro rfl; exact hc.2 rfl
        · exact h0 g hg hk

/-- What is in the channel and in the mapping for a task, from what its
`spawn` call can report: when `X` is the only value the call of `k` can
report in a reachable state, `X` is the only value keyed `k` in the channel or
in the mapping there, and when `Run` has returned `X` has been put on the
channel. -/
theorem reported_at {r : Runner} (hr : r.WF) {s : RunState} (hreach : Reach r s)
    {g : Spawn} (hg : g ∈ s.spawns) (X : response) (hX : ∀ x, Good g x → x = X) :
    (∀ x, mapGet s.responses g.runnerId = some x → x = X) ∧
    (∀ x ∈ s.respCh, x.key = g.runnerId → x = X) ∧
    (s.returned = true → X ∈ s.respCh ∨ mapGet s.responses g.runnerId = some X) := by
  have hs : s.Inv := Inv_reach hr hreach
  have ha : ∀ x, mapGet s.responses g.runnerId = some x → x = X :=
    fun x hx => hX x (good_of_coll hs hg hx)
  have hb : ∀ x ∈ s.respCh, x.key = g.runnerId → x = X :=
    fun x hx hk => hX x (good_of_chan hs hg hx hk)
  refine ⟨ha, hb, ?_⟩
  intro hret
  have hfin := finished_of_exitClosed hs (hs.retExit hret) hg
  have hone := hs.once g hg
  rw [hfin] at hone
  simp only [Pc.sent, Pc.pastSend, if_true] at hone
  by_cases hc : 0 < keyCount g.runnerId s.respCh
  · obtain ⟨x, hx, hk⟩ := keyCount_pos hc
    left
    exact (hb x hx hk) ▸ hx
  · right
    obtain ⟨x, hx⟩ := mapGet_of_count (m := s.responses) (k := g.runnerId) (by omega)
    rw [hx, ha x hx]

theorem Run_some {r r' : Runner} {sched : List Action} {m : List (String × response)}
    (h : r.Run sched = some (r', m)) :
    ∃ s, exec r.start sched = some s ∧ s.returned = true ∧ m = s.responses ∧ r' = NewRunner := by
  unfold Runner.Run at h
  split at h
  · simp at h
  · rename_i s hs
    split at h
    · rename_i hret
      simp only [Option.some.injEq, Prod.mk.injEq] at h
      exact ⟨s, hs, hret, h.2.symm, h.1.symm⟩
    · simp at h

/-- The value a `spawn` call can report when its context is not done. -/
theorem good_of_unfired {g : Spawn} {rf : RunnerFunc} {v : GoAny} {e : Option GoError}
    (herr : g.rt.ctx.err = none) (htask : g.rt.task = rf) (hret : rf.ret = some (v, e))
    {x : response} (hx : Good g x) : x = { key := g.runnerId, Value := v, Error := e } := by
  obtain ⟨-, ⟨e', he', -⟩ | ⟨-, v', e', hv, rfl⟩⟩ := hx
  · rw [herr] at he'; cases he'
  · rw [htask, hret] at hv
    simp only [Option.some.injEq, Prod.mk.injEq] at hv
    rw [hv.1, hv.2]

/-- The value a `spawn` call can report when its context was `Canceled`
before the work function could start. -/
theorem good_of_skipped {g : Spawn} (hq : g.Skipped) {x : response} (hx : Good g x) :
    x = { key := g.runnerId, Value := .nil, Error := some .Canceled } := by
  obtain ⟨-, ⟨e', he', rfl⟩ | ⟨hw, -⟩⟩ := hx
  · rw [hq.1] at he'
    simp only [Option.some.injEq] at he'
    rw [← he']
  · rw [hq.2] at hw; cases hw

theorem calm_record_work (k : String) :
    Calm k ([.spawn k .begin, .spawn k .check] ++
      ([.spawn k .work, .spawn k .selSub] ++ [.spawn k .send, .recv])) := by
  intro a ha
  simp only [List.cons_append, List.nil_append, List.mem_cons, List.mem_singleton,
    List.mem_nil_iff, or_false] at ha
  rcases ha with rfl | rfl | rfl | rfl | rfl | rfl <;> simp

/-- A task whose context is not done when `Run` is entered and whose work
function returns `(v, e)` is reported with exactly that on every schedule on
which nothing fires its context. -/
theorem reports_work_calm {r : Runner} (hr : r.WF) {k : String} {rt : RunnerTask}
    (hget : r.get k = some rt) (herr : rt.ctx.err = none) {v : GoAny} {e : Option GoError}
    (hret : rt.task.ret = some (v, e)) :
    ReportsCalm r k { key := k, Value := v, Error := e } := by
  have key : ∀ sched s, Calm k sched → exec r.start sched = some s →
      (∀ x, mapGet s.responses k = some x → x = { key := k, Value := v, Error := e }) ∧
      (∀ x ∈ s.respCh, x.key = k → x = { key := k, Value := v, Error := e }) ∧
      (s.returned = true → { key := k, Value := v, Error := e } ∈ s.respCh ∨
        mapGet s.responses k = some { key := k, Value := v, Error := e }) := by
    intro sched s hcalm h
    obtain ⟨g, hg, hgk⟩ := start_has_spawn hget ⟨sched, h⟩
    have hP := exec_spawn_calm (fun g => g.rt.ctx.err = none ∧ g.rt.task = rt.task)
      (by
        intro g g' c f a eff h1 h2 hp hstep
        refine ⟨?_, (spawn_task hstep).trans hp.2⟩
        obtain ⟨hp1, -⟩ := hp
        cases a <;> simp only [spawn] at hstep <;> (repeat' (split at hstep)) <;>
          simp at hstep <;> first
            | (obtain ⟨rfl, -⟩ := hstep; exact hp1)
            | exact absurd rfl h1
            | exact absurd rfl h2)
      k
      (fun g hg hk => by rw [start_spawn_eq hr hget g hg hk]; exact ⟨herr, rfl⟩)
      hcalm h g hg hgk
    have := reported_at hr ⟨sched, h⟩ hg { key := k, Value := v, Error := e }
      (fun x hx => by rw [← hgk]; exact good_of_unfired hP.1 hP.2 hret hx)
    rw [hgk] at this
    exact this
  refine ⟨key, ?_, ?_⟩
  · intro sched r' m x hcalm hrun hx
    obtain ⟨s, hs, -, rfl, -⟩ := Run_some hrun
    exact (key sched s hcalm hs).1 x hx
  · obtain ⟨s, hs, hres, -, -⟩ := record_work hget (by rw [herr]; simp) hret
    exact ⟨_, s, calm_record_work k, hs, hres⟩

/-- A task whose context is quiet and whose work function returns `(v, e)`
is reported with exactly that. -/
theorem reports_work {r : Runner} (hr : r.WF) {k : String} {rt : RunnerTask}
    (hget : r.get k = some rt) (hq : rt.ctx.Quiet) {v : GoAny} {e : Option GoError}
    (hret : rt.task.ret = some (v, e)) :
    Reports r k { key := k, Value := v, Error := e } := by
  have key : ∀ sched s, exec r.start sched = some s →
      (∀ x, mapGet s.responses k = some x → x = { key := k, Value := v, Error := e }) ∧
      (∀ x ∈ s.respCh, x.key = k → x = { key := k, Value := v, Error := e }) ∧
      (s.returned = true → { key := k, Value := v, Error := e } ∈ s.respCh ∨
        mapGet s.responses k = some { key := k, Value := v, Error := e }) := by
    intro sched s h
    obtain ⟨g, hg, hgk⟩ := start_has_spawn hget ⟨sched, h⟩
    have hP := exec_spawn_pred (fun g => g.rt.ctx.Quiet ∧ g.rt.task = rt.task)
      (fun g g' c f a eff hp hstep => ⟨spawn_quiet hstep hp.1, (spawn_task hstep).trans hp.2⟩)
      k
      (fun g hg hk => by rw [start_spawn_eq hr hget g hg hk]; exact ⟨hq, rfl⟩)
      h g hg hgk
    have := reported_at hr ⟨sched, h⟩ hg { key := k, Value := v, Error := e }
      (fun x hx => by rw [← hgk]; exact good_of_unfired hP.1.1 hP.2 hret hx)
    rw [hgk] at this
    exact this
  refine ⟨key, ?_, ?_⟩
  · intro sched r' m x hrun hx
    obtain ⟨s, hs, -, rfl, -⟩ := Run_some hrun
    exact (key sched s hs).1 x hx
  · obtain ⟨s, hs, hres, -, -⟩ := record_work hget (by rw [hq.1]; simp) hret
    exact ⟨_, s, hs, hres⟩

/-- A task whose context is `Canceled` when `Run` is entered is reported as
`Canceled` with no value, and its work function is never started. -/
theorem reports_canceled {r : Runner} (hr : r.WF) {k : String} {rt : RunnerTask}
    (hget : r.get k = some rt) (hc : rt.ctx.err = some .Canceled) :
    NeverStarted r k ∧ Reports r k { key := k, Value := .nil, Error := some .Canceled } := by
  have hP : ∀ sched s, exec r.start sched = some s →
      ∀ g ∈ s.spawns, g.runnerId = k → g.Skipped := fun sched s h =>
    exec_spawn_pred (fun g => g.Skipped)
      (fun g g' c f a eff hp hstep => spawn_skipped hstep hp) k
      (fun g hg hk => by rw [start_spawn_eq hr hget g hg hk]; exact ⟨hc, rfl⟩) h
  have key : ∀ sched s, exec r.start sched = some s →
      (∀ x, mapGet s.responses k = some x →
        x = { key := k, Value := .nil, Error := some .Canceled }) ∧
      (∀ x ∈ s.respCh, x.key = k → x = { key := k, Value := .nil, Error := some .Canceled }) ∧
      (s.returned = true → { key := k, Value := .nil, Error := some .Canceled } ∈ s.respCh ∨
        mapGet s.responses k = some { key := k, Value := .nil, Error := some .Canceled }) := by
    intro sched s h
    obtain ⟨g, hg, hgk⟩ := start_has_spawn hget ⟨sched, h⟩
    have := reported_at hr ⟨sched, h⟩ hg { key := k, Value := .nil, Error := some .Canceled }
      (fun x hx => by rw [← hgk]; exact good_of_skipped (hP sched s h g hg hgk) hx)
    rw [hgk] at this
    exact this
  refine ⟨fun sched s h g hg hk => (hP sched s h g hg hk).2, key, ?_, ?_⟩
  · intro sched r' m x hrun hx
    obtain ⟨s, hs, -, rfl, -⟩ := Run_some hrun
    exact (key sched s hs).1 x hx
  · obtain ⟨s, hs, hres, -, -⟩ := record_ctx hget hc
    exact ⟨_, s, hs, hres⟩

/-! ## The registry operations -/

theorem has_false_find {r : Runner} {k : String} (h : r.has k = false) :
    r.tasks.find? (fun p => p.1 == k) = none := by
  rw [List.find?_eq_none]
  intro p hp hc
  simp only [Runner.has, List.any_eq_false] at h
  exact h p hp hc

theorem AddTask_get_new {r : Runner} {rf : RunnerFunc} {name : String}
    (h : r.has name = false) :
    (r.AddTask rf name).1.get name = some { task := rf, ctx := WithCancel Background } := by
  simp [Runner.AddTask, h, Runner.get, List.find?_append, has_false_find h]

theorem AddTaskWithTimeout_get_new {r : Runner} {rf : RunnerFunc} {name : String}
    {ctx : Context} {d : Int} (h : r.has name = false) :
    (r.AddTaskWithTimeout rf name ctx d).1.get name =
      some { task := rf, ctx := WithTimeout ctx d } := by
  simp [Runner.AddTaskWithTimeout, h, Runner.get, List.find?_append, has_false_find h]

theorem WF_append {r : Runner} (hr : r.WF) {name : String} (h : r.has name = false)
    (rt : RunnerTask) : Runner.WF { tasks := r.tasks ++ [(name, rt)] } := by
  simp only [Runner.WF, List.map_append, List.map_cons, List.map_nil]
  rw [List.nodup_append]
  refine ⟨hr, List.nodup_singleton _, ?_⟩
  intro a ha hb
  simp only [List.mem_singleton] at hb
  subst hb
  obtain ⟨p, hp, hpa⟩ := List.mem_map.1 ha
  simp only [Runner.has, List.any_eq_false] at h
  exact h p hp (by simpa using hpa)

theorem AddTask_WF {r : Runner} (hr : r.WF) (rf : RunnerFunc) (name : String) :
    (r.AddTask rf name).1.WF := by
  unfold Runner.AddTask
  split
  · exact hr
  · rename_i h
    exact WF_append hr (by simpa using h) _

theorem AddTaskWithTimeout_WF {r : Runner} (hr : r.WF) (rf : RunnerFunc) (name : String)
    (ctx : Context) (d : Int) : (r.AddTaskWithTimeout rf name ctx d).1.WF := by
  unfold Runner.AddTaskWithTimeout
  split
  · exact hr
  · rename_i h
    exact WF_append hr (by simpa using h) _

theorem CancelAll_keys (r : Runner) : r.CancelAll.tasks.map Prod.fst = r.tasks.map Prod.fst := by
  simp [Runner.CancelAll, Function.comp_def]

theorem CancelAll_WF {r : Runner} (hr : r.WF) : r.CancelAll.WF := by
  unfold Runner.WF
  rw [CancelAll_keys]
  exact hr

theorem CancelAll_get (r : Runner) (k : String) :
    r.CancelAll.get k = (r.get k).map (fun rt => { rt with ctx := rt.ctx.cancel }) := by
  simp only [Runner.get, Runner.CancelAll, List.find?_map, Function.comp_def, Option.map_map]

theorem CancelTaskByName_keys (r : Runner) (x : String) :
    (r.CancelTaskByName x).tasks.map Prod.fst = r.tasks.map Prod.fst := by
  unfold Runner.CancelTaskByName
  split
  · simp only [List.map_map]
    apply List.map_congr_left
    intro p _
    simp only [Function.comp_apply]
    split <;> rfl
  · rfl

theorem CancelTaskByName_WF {r : Runner} (hr : r.WF) (x : String) :
    (r.CancelTaskByName x).WF := by
  unfold Runner.WF
  rw [CancelTaskByName_keys]
  exact hr

theorem CancelTaskByName_get (r : Runner) (x k : String) (rt : RunnerTask)
    (h : r.get k = some rt) :
    (r.CancelTaskByName x).get k =
      some (if k = x then { rt with ctx := rt.ctx.cancel } else rt) := by
  have hhas : r.has k = true := by rw [← get_isSome_iff_has, h]; rfl
  unfold Runner.CancelTaskByName
  split
  · simp only [Runner.get, Option.map_eq_some'] at h
    obtain ⟨p, hp, rfl⟩ := h
    have hk := List.find?_some hp
    simp only [beq_iff_eq] at hk
    simp only [Runner.get, List.find?_map, Function.comp_def]
    have : (fun p : String × RunnerTask =>
        (if p.1 = x then (p.1, ({ p.2 with ctx := p.2.ctx.cancel } : RunnerTask)) else p).1 == k) =
        (fun p => p.1 == k) := by
      funext p
      split <;> rfl
    rw [this, hp]
    simp only [Option.map_some', hk]
    split <;> rfl
  · rename_i hx
    have : k ≠ x := by
      rintro rfl
      exact hx hhas
    rw [if_neg this, h]

theorem CancelTaskByName_absent (r : Runner) (x : String) (h : r.has x = false) :
    r.CancelTaskByName x = r := by
  simp [Runner.CancelTaskByName, h]

theorem cancel_err {c : Context} (h : c.err = none ∨ c.err = some .Canceled) :
    c.cancel.err = some .Canceled := by
  rcases h with h | h <;> simp [Context.cancel, h]

/-! ## Progress of one `spawn` call from any reachable state -/

theorem getSpawn_of_mem {s : RunState} (hs : s.Inv) {g : Spawn} (hg : g ∈ s.spawns) :
    s.getSpawn g.runnerId = some g := by
  cases hf : s.getSpawn g.runnerId with
  | none =>
    simp only [RunState.getSpawn, List.find?_eq_none] at hf
    have := hf g hg
    simp at this
  | some g' =>
    obtain ⟨hmem, hid⟩ := getSpawn_some hf
    rw [spawn_eq_of_id hs.nodup hmem hg hid]

theorem reach_step {r : Runner} {s s' : RunState} {a : Action} (h : Reach r s)
    (hstep : step s a = some s') : Reach r s' := by
  obtain ⟨sched, hsched⟩ := h
  refine ⟨sched ++ [a], ?_⟩
  rw [exec_append, hsched]
  simp [exec, hstep]

theorem reach_exec {r : Runner} {s s' : RunState} {sched : List Action} (h : Reach r s)
    (hexec : exec s sched = some s') : Reach r s' := by
  obtain ⟨sched0, hsched0⟩ := h
  refine ⟨sched0 ++ sched, ?_⟩
  rw [exec_append, hsched0]
  exact hexec

/-- The collector can empty the channel as long as `Run` has not returned. -/
theorem drain (s : RunState) (hp : s.panicked = false) (hr : s.returned = false) :
    ∃ s', exec s (List.replicate s.respCh.length .recv) = some s' ∧ s'.respCh = [] ∧
      s'.spawns = s.spawns ∧ s'.panicked = false ∧ s'.returned = false := by
  generalize hn : s.respCh.length = n
  induction n generalizing s with
  | zero =>
    exact ⟨s, rfl, List.length_eq_zero.1 hn, rfl, hp, hr⟩
  | succ n ih =>
    match hch : s.respCh with
    | [] => simp [hch] at hn
    | x :: rest =>
      have e1 : step s .recv =
          some { s with respCh := rest, responses := mapSet s.responses x } := by
        simp [step, hp, hr, hch]
      obtain ⟨s', h1, h2, h3, h4, h5⟩ :=
        ih { s with respCh := rest, responses := mapSet s.responses x } hp hr
          (by simpa [hch] using hn)
      exact ⟨s', by simp only [List.replicate, exec, e1]; exact h1, h2, h3, h4, h5⟩

/-- From a `spawn` call at its send on `respCh`, in a program that has not
panicked: the send goes through and the collector can receive the value, so
that the mapping has an entry for the task. -/
theorem can_collect {r : Runner} (hr : r.WF) {s : RunState} (hreach : Reach r s)
    (hp : s.panicked = false) {g : Spawn} (hg : g ∈ s.spawns) {x : response}
    (hpc : g.pc = .send x) :
    ∃ sched s', exec s sched = some s' ∧ (mapGet s'.responses g.runnerId).isSome = true := by
  have hs := Inv_reach hr hreach
  obtain ⟨hc, hroom⟩ := send_enabled hs hg hpc
  have hret : s.returned = false := by rw [← hs.closedRet]; exact hc
  have e1 := step_spawn_of .send
    ⟨g.runnerId, g.rt, .close, g.work, g.subBuf, g.subClosed⟩ (.push x) hp
    (getSpawn_of_mem hs hg)
    (by
      have : ¬ s.taskLen ≤ s.respCh.length := by omega
      simp [spawn, hpc, hc, this])
  obtain ⟨s1, hs1⟩ : ∃ s1, s1 =
      (s.setSpawn ⟨g.runnerId, g.rt, .close, g.work, g.subBuf, g.subClosed⟩).apply (.push x) :=
    ⟨_, rfl⟩
  rw [← hs1] at e1
  have hmem1 : (⟨g.runnerId, g.rt, .close, g.work, g.subBuf, g.subClosed⟩ : Spawn) ∈ s1.spawns := by
    rw [hs1, apply_spawns]
    exact putSpawn_mem_self hg rfl
  obtain ⟨s2, e2, hch2, hsp2, -, -⟩ := drain s1 (by rw [hs1]; exact hp)
    (by rw [hs1, apply_returned]; exact hret)
  have hreach2 : Reach r s2 := reach_exec (reach_step hreach e1) e2
  have hs2 := Inv_reach hr hreach2
  have hone := hs2.once _ (hsp2 ▸ hmem1)
  simp only [hch2, keyCount, List.countP_nil, Pc.sent, Pc.pastSend, if_true,
    Nat.zero_add] at hone
  obtain ⟨y, hy⟩ := mapGet_of_count (m := s2.responses) (k := g.runnerId) (by omega)
  refine ⟨.spawn g.runnerId .send :: List.replicate s1.respCh.length .recv, s2, ?_, ?_⟩
  · simp only [exec, e1]
    exact e2
  · rw [hy]; rfl

/-- From a `spawn` call that has not passed the test of line 127 and whose
context is `Canceled`, the call can reach its send without starting the work
function. -/
theorem to_send_canceled {r : Runner} (hr : r.WF) {s : RunState} (hreach : Reach r s)
    (hp : s.panicked = false) {g : Spawn} (hg : g ∈ s.spawns)
    (hpc : g.pc = .start ∨ g.pc = .check) (hc : g.rt.ctx.err = some .Canceled) :
    ∃ sched s1 g1 x, exec s sched = some s1 ∧ s1.panicked = false ∧ g1 ∈ s1.spawns ∧
      g1.runnerId = g.runnerId ∧ g1.pc = .send x := by
  have hs := Inv_reach hr hreach
  have hget := getSpawn_of_mem hs hg
  -- first bring the call to the test
  obtain ⟨s0, sched0, e0, hp0, hget0⟩ : ∃ s0 sched0, exec s sched0 = some s0 ∧
      s0.panicked = false ∧
      s0.getSpawn g.runnerId = some ⟨g.runnerId, g.rt, .check, g.work, g.subBuf, g.subClosed⟩ := by
    rcases hpc with h | h
    · obtain ⟨s0, e, hg0, hp0, -⟩ := step_skip .begin
        ⟨g.runnerId, g.rt, .check, g.work, g.subBuf, g.subClosed⟩ hp hget
        (by simp [spawn, h]) rfl
      exact ⟨s0, [.spawn g.runnerId .begin], by simp [exec, e], hp0, hg0⟩
    · refine ⟨s, [], rfl, hp, ?_⟩
      rw [hget]
      congr 1
      cases g
      simp only at h
      subst h
      rfl
  obtain ⟨s1, e1, hg1, hp1, -⟩ := step_skip .check
    ⟨g.runnerId, g.rt, .select, g.work, g.subBuf, g.subClosed⟩ hp0 hget0
    (by simp [spawn, hc]) rfl
  obtain ⟨s2, e2, hg2, hp2, -⟩ := step_skip .selCtx
    ⟨g.runnerId, g.rt, .send { key := g.runnerId, Value := .nil, Error := some .Canceled },
      g.work, g.subBuf, g.subClosed⟩ hp1 hg1
    (by simp [spawn, hc]) rfl
  refine ⟨sched0 ++ [.spawn g.runnerId .check, .spawn g.runnerId .selCtx], s2, _, _, ?_, hp2,
    (getSpawn_some hg2).1, rfl, rfl⟩
  rw [exec_append, e0]
  simp [exec, e1, e2]

theorem NewRunner_WF : NewRunner.WF := List.nodup_nil

/-! ## A run on an empty registry -/

theorem step_empty {s' : RunState} {a : Action} (h : step NewRunner.start a = some s') :
    a = .wait ∧ s' = { NewRunner.start with exitClosed := true } := by
  cases a <;> simp [step, NewRunner, Runner.start, RunState.getSpawn] at h ⊢
  exact h.symm

theorem step_empty_waited {s' : RunState} {a : Action}
    (h : step { NewRunner.start with exitClosed := true } a = some s') :
    a = .exit ∧
      s' = { NewRunner.start with exitClosed := true, returned := true, respClosed := true } := by
  cases a <;> simp [step, NewRunner, Runner.start, RunState.getSpawn] at h ⊢
  exact h.symm

theorem step_empty_returned {s' : RunState} {a : Action}
    (h : step { NewRunner.start with exitClosed := true, returned := true,
                                     respClosed := true } a = some s') : False := by
  cases a <;> simp [step, NewRunner, Runner.start, RunState.getSpawn] at h

/-- On an empty registry the launcher and the collector have one run: the
launcher passes `wg.Wait()` and closes `exitChan`, then the collector leaves
its loop. -/
theorem exec_empty {sched : List Action} {s : RunState}
    (h : exec NewRunner.start sched = some s) :
    (sched = [] ∧ s.returned = false) ∨ (sched = [.wait] ∧ s.returned = false) ∨
      (sched = [.wait, .exit] ∧ s.returned = true ∧ s.responses = []) := by
  match sched with
  | [] =>
    simp only [exec, Option.some.injEq] at h
    subst h
    exact Or.inl ⟨rfl, rfl⟩
  | a :: rest =>
    simp only [exec] at h
    split at h
    · simp at h
    · rename_i s1 h1
      obtain ⟨rfl, rfl⟩ := step_empty h1
      match rest with
      | [] =>
        simp only [exec, Option.some.injEq] at h
        subst h
        exact Or.inr (Or.inl ⟨rfl, rfl⟩)
      | b :: rest2 =>
        simp only [exec] at h
        split at h
        · simp at h
        · rename_i s2 h2
          obtain ⟨rfl, rfl⟩ := step_empty_waited h2
          match rest2 with
          | [] =>
            simp only [exec, Option.some.injEq] at h
            subst h
            exact Or.inr (Or.inr ⟨rfl, rfl, rfl⟩)
          | c :: rest3 =>
            simp only [exec] at h
            split at h
            · simp at h
            · rename_i s3 h3
              exact (step_empty_returned h3).elim

theorem has_of_spawn {r : Runner} {sched : List Action} {s : RunState}
    (h : exec r.start sched = some s) {g : Spawn} (hg : g ∈ s.spawns) :
    r.has g.runnerId = true := by
  have hk : g.runnerId ∈ r.tasks.map Prod.fst := by
    rw [← start_spawns_ids, ← exec_ids h]
    exact List.mem_map_of_mem _ hg
  obtain ⟨p, hp, hpk⟩ := List.mem_map.1 hk
  simp only [Runner.has, List.any_eq_true]
  exact ⟨p, hp, by simpa using hpk⟩

/-! ## After the `select` -/

theorem spawn_pastSelect {g g' : Spawn} {c f : Bool} {a : SpawnAct} {eff : Effect}
    (h : spawn g c f a = some (g', eff)) (hp : g.pc.pastSelect = true) :
    g'.pc.pastSelect = true ∧ ∀ x, g'.pc = .send x → g.pc = .send x := by
  cases a <;> simp only [spawn] at h <;> (repeat' (split at h)) <;> simp at h <;>
    obtain ⟨rfl, rfl⟩ := h <;> simp_all [Pc.pastSelect]

/-- A property of the whole state that every step keeps in a state where the
invariant holds is kept along every schedule. -/
theorem exec_global (J : RunState → Prop)
    (hJ : ∀ s a s', s.Inv → J s → step s a = some s' → J s')
    {s s' : RunState} {sched : List Action} (hs : s.Inv) (h0 : J s)
    (h : exec s sched = some s') : J s' := by
  induction sched generalizing s with
  | nil =>
    simp only [exec, Option.some.injEq] at h
    exact h ▸ h0
  | cons a as ih =>
    simp only [exec] at h
    split at h
    · simp at h
    · rename_i s1 h1
      exact ih (Inv_step hs h1) (hJ s a s1 hs h0 h1) h

theorem step_cases {s s' : RunState} {a : Action} (h : step s a = some s') :
    (∃ k b g g' eff, a = .spawn k b ∧ s.getSpawn k = some g ∧
        spawn g s.respClosed (decide (s.taskLen ≤ s.respCh.length)) b = some (g', eff) ∧
        s' = (s.setSpawn g').apply eff) ∨
    (s'.spawns = s.spawns ∧ s'.respCh = s.respCh ∧ s'.responses = s.responses) ∨
    (∃ x rest, s.respCh = x :: rest ∧ s'.spawns = s.spawns ∧ s'.respCh = rest ∧
        s'.responses = mapSet s.responses x) := by
  cases a with
  | spawn k b =>
    obtain ⟨g, g', eff, hget, hstep, rfl⟩ := step_spawn_inv h
    exact Or.inl ⟨k, b, g, g', eff, rfl, hget, hstep, rfl⟩
  | wait =>
    right; left
    unfold step at h
    split at h
    · simp at h
    · simp only at h
      split at h
      · simp only [Option.some.injEq] at h; subst h; exact ⟨rfl, rfl, rfl⟩
      · simp at h
  | recv =>
    right; right
    unfold step at h
    split at h
    · simp at h
    · simp only at h
      split at h
      · simp at h
      · split at h
        · simp at h
        · rename_i x rest hch
          simp only [Option.some.injEq] at h; subst h
          exact ⟨x, rest, hch, rfl, rfl, rfl⟩
  | exit =>
    right; left
    unfold step at h
    split at h
    · simp at h
    · simp only at h
      split at h
      · simp only [Option.some.injEq] at h; subst h; exact ⟨rfl, rfl, rfl⟩
      · simp at h

/-- Once the `spawn` call of `k` has taken its `select` with `X`, every step
keeps `X` the only value of `k`. -/
theorem Settled_step (k : String) (X : response) (s : RunState) (a : Action) (s' : RunState)
    (hs : s.Inv) (hJ : Settled k X s) (h : step s a = some s') : Settled k X s' := by
  obtain ⟨hsp, hch, hmap⟩ := hJ
  rcases step_cases h with ⟨k', b, g0, g0', eff, -, hget, hstep, rfl⟩ |
    ⟨e1, e2, e3⟩ | ⟨x, rest, hx, e1, e2, e3⟩
  · obtain ⟨hmem, -⟩ := getSpawn_some hget
    have hid := spawn_runnerId hstep
    refine ⟨?_, ?_, ?_⟩
    · intro g hg hk
      rw [apply_spawns] at hg
      rcases mem_putSpawn hg with rfl | ⟨hg, -⟩
      · obtain ⟨hp0, hx0⟩ := hsp g0 hmem (hid.symm.trans hk)
        obtain ⟨hp1, hx1⟩ := spawn_pastSelect hstep hp0
        exact ⟨hp1, fun x hx => hx0 x (hx1 x hx)⟩
      · exact hsp g hg hk
    · intro x hx hk
      rw [apply_respCh] at hx
      rcases List.mem_append.1 hx with hx | hx
      · exact hch x hx hk
      · cases eff <;> simp [Effect.pushed] at hx
        subst hx
        have hpc := (spawn_push hstep).1
        have hgood := (hs.each g0 hmem).sending _ hpc
        exact (hsp g0 hmem (hgood.1.symm.trans hk)).2 _ hpc
    · intro p hp hk
      rw [apply_responses] at hp
      exact hmap p hp hk
  · exact ⟨e1 ▸ hsp, e2 ▸ hch, e3 ▸ hmap⟩
  · refine ⟨e1 ▸ hsp, ?_, ?_⟩
    · intro y hy hk
      rw [e2] at hy
      exact hch y (by rw [hx]; exact List.mem_cons_of_mem _ hy) hk
    · intro p hp hk
      rw [e3] at hp
      simp only [mapSet, List.mem_cons, List.mem_filter] at hp
      rcases hp with rfl | ⟨hp, -⟩
      · exact hch x (by rw [hx]; exact List.mem_cons_self _ _) hk
      · exact hmap p hp hk

/-- What is in the channel and in the mapping for a task after its `spawn`
call has taken its `select`: when `X` is the only value the call can report
at that moment, `X` stays the only value keyed with the task's name, whatever
happens later. -/
theorem reported_after {r : Runner} (hr : r.WF) {s1 : RunState} (h1 : Reach r s1)
    {k : String} {g1 : Spawn} (hg1 : g1 ∈ s1.spawns) (hk : g1.runnerId = k)
    (hpast : g1.pc.pastSelect = true) (X : response) (hX : ∀ x, Good g1 x → x = X)
    {post : List Action} {s : RunState} (h : exec s1 post = some s) :
    (∀ x, mapGet s.responses k = some x → x = X) ∧
    (∀ x ∈ s.respCh, x.key = k → x = X) ∧
    (s.returned = true → X ∈ s.respCh ∨ mapGet s.responses k = some X) := by
  have hs1 := Inv_reach hr h1
  have hJ1 : Settled k X s1 := by
    refine ⟨?_, ?_, ?_⟩
    · intro g hg hgk
      have : g = g1 := spawn_eq_of_id hs1.nodup hg hg1 (hgk.trans hk.symm)
      subst this
      exact ⟨hpast, fun x hx => hX x ((hs1.each g hg).sending x hx)⟩
    · intro x hx hxk
      exact hX x (good_of_chan hs1 hg1 hx (hxk.trans hk.symm))
    · intro p hp hpk
      obtain ⟨hkey, g, hg, hgood⟩ := hs1.coll p hp
      have : g = g1 := spawn_eq_of_id hs1.nodup hg hg1
        (hgood.1.symm.trans (hkey.symm.trans (hpk.trans hk.symm)))
      exact hX _ (this ▸ hgood)
  have hJ : Settled k X s := exec_global (Settled k X) (Settled_step k X) hs1 hJ1 h
  have hreach : Reach r s := reach_exec h1 h
  have hs := Inv_reach hr hreach
  obtain ⟨hsp, hch, hmap⟩ := hJ
  have ha : ∀ x, mapGet s.responses k = some x → x = X :=
    fun x hx => hmap _ (mapGet_mem hx) rfl
  refine ⟨ha, hch, ?_⟩
  intro hret
  obtain ⟨g, hg, hgk⟩ : ∃ g ∈ s.spawns, g.runnerId = k := by
    have : k ∈ s.spawns.map Spawn.runnerId := by
      rw [exec_ids h]
      exact List.mem_map.2 ⟨g1, hg1, hk⟩
    obtain ⟨g, hg, hgk⟩ := List.mem_map.1 this
    exact ⟨g, hg, hgk⟩
  have hfin := finished_of_exitClosed hs (hs.retExit hret) hg
  have hone := hs.once g hg
  rw [hfin, hgk] at hone
  simp only [Pc.sent, Pc.pastSend, if_true] at hone
  by_cases hc : 0 < keyCount k s.respCh
  · obtain ⟨x, hx, hxk⟩ := keyCount_pos hc
    left
    exact (hch x hx hxk) ▸ hx
  · right
    obtain ⟨x, hx⟩ := mapGet_of_count (m := s.responses) (k := k) (by omega)
    rw [hx, ha x hx]

/-- A task with a recorded Result has a `spawn` call that is past its
`select`. -/
theorem pastSelect_of_recorded {s : RunState} (hs : s.Inv) {g : Spawn} (hg : g ∈ s.spawns)
    {x : response} (hx : mapGet s.responses g.runnerId = some x) :
    g.pc.pastSelect = true := by
  have hone := hs.once g hg
  have hpos : 0 < mapCount g.runnerId s.responses := by
    simp only [mapCount, List.countP_pos_iff]
    exact ⟨_, mapGet_mem hx, by simp⟩
  have hsent : g.pc.sent = 1 := by
    have := Pc.sent_le g.pc
    omega
  cases hpc : g.pc <;> simp [hpc, Pc.sent, Pc.pastSend, Pc.pastSelect] at hsent ⊢

/-- A property of the `spawn` call of `k` that every step keeps, except
those in `bad`, holds along every schedule on which the call takes no step
in `bad`. -/
theorem exec_spawn_avoid (bad : SpawnAct → Prop) (P : Spawn → Prop)
    (hP : ∀ (g g' : Spawn) (c f : Bool) (a : SpawnAct) (eff : Effect),
      ¬ bad a → P g → spawn g c f a = some (g', eff) → P g')
    (k : String) {s s' : RunState} {sched : List Action}
    (h0 : ∀ g ∈ s.spawns, g.runnerId = k → P g)
    (havoid : ∀ b, Action.spawn k b ∈ sched → ¬ bad b)
    (h : exec s sched = some s') :
    ∀ g ∈ s'.spawns, g.runnerId = k → P g := by
  induction sched generalizing s with
  | nil =>
    simp only [exec, Option.some.injEq] at h
    exact h ▸ h0
  | cons a as ih =>
    simp only [exec] at h
    split at h
    · simp at h
    · rename_i s1 h1
      refine ih ?_ (fun b hb => havoid b (List.mem_cons_of_mem _ hb)) h
      rcases step_spawns h1 with heq | ⟨k', b, g0, g0', eff, ha, hget, hstep, heq⟩
      · rw [heq]; exact h0
      · rw [heq]
        intro g hg hk
        rcases mem_putSpawn hg with rfl | ⟨hg, -⟩
        · obtain ⟨hmem, hk'⟩ := getSpawn_some hget
          have hid := spawn_runnerId hstep
          have hkk : k' = k := by rw [← hk', ← hid, hk]
          have hb : ¬ bad b := havoid b (by rw [ha, hkk]; exact List.mem_cons_self _ _)
          exact hP g0 g _ _ b _ hb (h0 g0 hmem (hid.symm.trans hk)) hstep
        · exact h0 g hg hk

/-! ## The two halves of a timeout -/

/-- A run on which the deadline elapses while the work function is running,
the `select` takes the context case, and `DeadlineExceeded` is recorded. -/
theorem record_deadline {r : Runner} {k : String} {rt : RunnerTask}
    (hget : r.get k = some rt) (herr : rt.ctx.err = none) (hexp : rt.ctx.canExpire = true) :
    ∃ s, exec r.start ([.spawn k .begin, .spawn k .check] ++
        ([.spawn k .deadline, .spawn k .selCtx] ++ [.spawn k .send, .recv])) = some s ∧
      mapGet s.responses k = some { key := k, Value := .nil, Error := some .DeadlineExceeded } ∧
      s.returned = false ∧ s.panicked = false := by
  obtain ⟨s2, e12, h2, p2, r2, c2, ch2, m2, l2⟩ := exec_to_select hget
  rw [if_neg (by rw [herr]; simp)] at h2
  obtain ⟨s3, e3, h3, p3, r3, c3, ch3, m3, l3⟩ :=
    step_skip .deadline ⟨k, { rt with ctx := rt.ctx.expire }, .select, .running, none, false⟩
      p2 h2 (by simp [spawn, herr, hexp]) rfl
  obtain ⟨s4, e4, h4, p4, r4, c4, ch4, m4, l4⟩ :=
    step_skip .selCtx
      ⟨k, { rt with ctx := rt.ctx.expire },
        .send { key := k, Value := .nil, Error := some .DeadlineExceeded }, .running, none, false⟩
      p3 h3 (by simp [spawn, Context.expire, herr]) rfl
  obtain ⟨s', e56, hres, hr', hp'⟩ := exec_send_recv h4 rfl rfl p4 (by rw [r4, r3, r2])
    (by rw [c4, c3, c2]) (by rw [ch4, ch3, ch2]) (by rw [m4, m3, m2])
    (by rw [l4, l3, l2]; exact tasks_pos hget)
  refine ⟨s', ?_, hres, hr', hp'⟩
  rw [exec_append, e12, Option.bind, exec_append]
  simp only [exec, e3, e4, Option.bind]
  exact e56

theorem noReturn_record_ctx (k : String) :
    NoReturn k ([.spawn k .begin, .spawn k .check] ++
      ([.spawn k .selCtx] ++ [.spawn k .send, .recv])) := by
  intro a ha
  simp only [List.cons_append, List.nil_append, List.mem_cons, List.mem_singleton,
    List.mem_nil_iff, or_false] at ha
  rcases ha with rfl | rfl | rfl | rfl | rfl <;> simp

theorem noReturn_record_deadline (k : String) :
    NoReturn k ([.spawn k .begin, .spawn k .check] ++
      ([.spawn k .deadline, .spawn k .selCtx] ++ [.spawn k .send, .recv])) := by
  intro a ha
  simp only [List.cons_append, List.nil_append, List.mem_cons, List.mem_singleton,
    List.mem_nil_iff, or_false] at ha
  rcases ha with rfl | rfl | rfl | rfl | rfl | rfl <;> simp

/-- In a state where a Result is recorded for the task `k`, every `spawn`
call of `k` is past its `select`. -/
theorem pastSelect_of_mapGet {r : Runner} (hr : r.WF) {s : RunState} (h : Reach r s)
    {k : String} {x : response} (hx : mapGet s.responses k = some x) :
    ∀ g ∈ s.spawns, g.runnerId = k → g.pc.pastSelect = true := by
  intro g hg hk
  exact pastSelect_of_recorded (Inv_reach hr h) hg (hk ▸ hx)

/-- A task whose context no ancestor can cancel, and which is done with
`DeadlineExceeded` or has a pending deadline: when its work function has not
returned at the moment its `spawn` call has taken its `select`, it is
reported with `DeadlineExceeded` and no value, whatever happens later. -/
theorem reports_late {r : Runner} (hr : r.WF) {k : String} {rt : RunnerTask}
    (hget : r.get k = some rt) (hcc : rt.ctx.canCancel = false)
    (herr : rt.ctx.err = some .DeadlineExceeded ∨
      (rt.ctx.err = none ∧ rt.ctx.canExpire = true)) :
    ReportsWhen (NoReturn k) r k { key := k, Value := .nil, Error := some .DeadlineExceeded } := by
  have key : ∀ pre post s1 s, NoReturn k pre → exec r.start pre = some s1 →
      (∀ g ∈ s1.spawns, g.runnerId = k → g.pc.pastSelect = true) → exec s1 post = some s →
      (∀ x, mapGet s.responses k = some x →
        x = { key := k, Value := .nil, Error := some .DeadlineExceeded }) ∧
      (∀ x ∈ s.respCh, x.key = k →
        x = { key := k, Value := .nil, Error := some .DeadlineExceeded }) ∧
      (s.returned = true →
        { key := k, Value := .nil, Error := some .DeadlineExceeded } ∈ s.respCh ∨
        mapGet s.responses k =
          some { key := k, Value := .nil, Error := some .DeadlineExceeded }) := by
    intro pre post s1 s hok h1 hpast h
    obtain ⟨g1, hg1, hgk⟩ := start_has_spawn hget ⟨pre, h1⟩
    have hP := exec_spawn_avoid (fun a => a = .work)
      (fun g => g.work ≠ .returned ∧ g.rt.ctx.canCancel = false ∧
        (g.rt.ctx.err = none ∨ g.rt.ctx.err = some .DeadlineExceeded))
      (by
        intro g g' c f a eff hbad hp hstep
        obtain ⟨hp1, hp2, hp3⟩ := hp
        cases a <;> simp only [spawn] at hstep <;> (repeat' (split at hstep)) <;>
          simp at hstep <;> first
            | exact absurd rfl hbad
            | (obtain ⟨rfl, -⟩ := hstep
               simp_all [Context.expire, Context.cancel]))
      k
      (fun g hg hk => by
        rw [start_spawn_eq hr hget g hg hk]
        refine ⟨by simp [Spawn.fresh], hcc, ?_⟩
        rcases herr with h | h
        · exact Or.inr h
        · exact Or.inl h.1)
      (fun b hb hbad => hok _ hb (by rw [hbad]))
      h1 g1 hg1 hgk
    refine reported_after hr ⟨pre, h1⟩ hg1 hgk (hpast g1 hg1 hgk) _ ?_ h
    intro x hx
    obtain ⟨hw, -, he⟩ := hP
    obtain ⟨-, ⟨e', he', rfl⟩ | ⟨hw', -⟩⟩ := hx
    · rcases he with he | he
      · rw [he] at he'; cases he'
      · rw [he] at he'
        simp only [Option.some.injEq] at he'
        rw [← he', hgk]
    · exact absurd hw' hw
  refine ⟨key, ?_, ?_⟩
  · intro pre post s1 r' m x hok h1 hpast hrun hx
    obtain ⟨s, hs, -, rfl, -⟩ := Run_some hrun
    rw [exec_append, h1] at hs
    exact (key pre post s1 s hok h1 hpast hs).1 x hx
  · rcases herr with h | h
    · obtain ⟨s, hs, hres, -, -⟩ := record_ctx hget h
      exact ⟨_, s, noReturn_record_ctx k, hs, pastSelect_of_mapGet hr ⟨_, hs⟩ hres, hres⟩
    · obtain ⟨s, hs, hres, -, -⟩ := record_deadline hget h.1 h.2
      exact ⟨_, s, noReturn_record_deadline k, hs, pastSelect_of_mapGet hr ⟨_, hs⟩ hres, hres⟩

/-- A task whose context is not done when `Run` is entered and whose work
function returns `(v, e)`: when nothing has fired its context at the moment
its `spawn` call has taken its `select`, it is reported with `(v, e)`,
whatever happens later. -/
theorem reports_early {r : Runner} (hr : r.WF) {k : String} {rt : RunnerTask}
    (hget : r.get k = some rt) (herr : rt.ctx.err = none) {v : GoAny} {e : Option GoError}
    (hret : rt.task.ret = some (v, e)) :
    ReportsWhen (Calm k) r k { key := k, Value := v, Error := e } := by
  have key : ∀ pre post s1 s, Calm k pre → exec r.start pre = some s1 →
      (∀ g ∈ s1.spawns, g.runnerId = k → g.pc.pastSelect = true) → exec s1 post = some s →
      (∀ x, mapGet s.responses k = some x → x = { key := k, Value := v, Error := e }) ∧
      (∀ x ∈ s.respCh, x.key = k → x = { key := k, Value := v, Error := e }) ∧
      (s.returned = true → { key := k, Value := v, Error := e } ∈ s.respCh ∨
        mapGet s.responses k = some { key := k, Value := v, Error := e }) := by
    intro pre post s1 s hok h1 hpast h
    obtain ⟨g1, hg1, hgk⟩ := start_has_spawn hget ⟨pre, h1⟩
    have hP := exec_spawn_avoid (fun a => a = .deadline ∨ a = .parentCancel)
      (fun g => g.rt.ctx.err = none ∧ g.rt.task = rt.task)
      (by
        intro g g' c f a eff hbad hp hstep
        refine ⟨?_, (spawn_task hstep).trans hp.2⟩
        obtain ⟨hp1, -⟩ := hp
        cases a <;> simp only [spawn] at hstep <;> (repeat' (split at hstep)) <;>
          simp at hstep <;> first
            | (obtain ⟨rfl, -⟩ := hstep; exact hp1)
            | exact absurd (Or.inl rfl) hbad
            | exact absurd (Or.inr rfl) hbad)
      k
      (fun g hg hk => by rw [start_spawn_eq hr hget g hg hk]; exact ⟨herr, rfl⟩)
      (fun b hb hbad => by
        rcases hbad with rfl | rfl
        · exact (hok _ hb).1 rfl
        · exact (hok _ hb).2 rfl)
      h1 g1 hg1 hgk
    refine reported_after hr ⟨pre, h1⟩ hg1 hgk (hpast g1 hg1 hgk) _ ?_ h
    intro x hx
    rw [← hgk]
    exact good_of_unfired hP.1 hP.2 hret hx
  refine ⟨key, ?_, ?_⟩
  · intro pre post s1 r' m x hok h1 hpast hrun hx
    obtain ⟨s, hs, -, rfl, -⟩ := Run_some hrun
    rw [exec_append, h1] at hs
    exact (key pre post s1 s hok h1 hpast hs).1 x hx
  · obtain ⟨s, hs, hres, -, -⟩ := record_work hget (by rw [herr]; simp) hret
    exact ⟨_, s, calm_record_work k, hs, pastSelect_of_mapGet hr ⟨_, hs⟩ hres, hres⟩

/-! ## Time between the calls -/

theorem elapse_keys (r : Runner) (x : String) :
    (r.elapse x).tasks.map Prod.fst = r.tasks.map Prod.fst := by
  simp only [Runner.elapse, List.map_map]
  apply List.map_congr_left
  intro p _
  simp only [Function.comp_apply]
  split <;> rfl

theorem elapse_WF {r : Runner} (hr : r.WF) (x : String) : (r.elapse x).WF := by
  unfold Runner.WF
  rw [elapse_keys]
  exact hr

theorem elapse_get (r : Runner) (x : String) (rt : RunnerTask) (h : r.get x = some rt) :
    (r.elapse x).get x =
      some (if rt.ctx.canExpire = true then { rt with ctx := rt.ctx.expire } else rt) := by
  simp only [Runner.get, Option.map_eq_some'] at h
  obtain ⟨p, hp, rfl⟩ := h
  have hk := List.find?_some hp
  simp only [beq_iff_eq] at hk
  simp only [Runner.get, Runner.elapse, List.find?_map, Function.comp_def]
  have : (fun p : String × RunnerTask =>
      (if p.1 = x ∧ p.2.ctx.canExpire = true then
        (p.1, ({ p.2 with ctx := p.2.ctx.expire } : RunnerTask)) else p).1 == x) =
      (fun p => p.1 == x) := by
    funext p
    split <;> rfl
  rw [this, hp]
  simp only [Option.map_some', hk, true_and]
  split <;> rfl

/-- The context that `AddTaskWithTimeout` makes from a parent that never
fires, as it is stored and after its deadline has elapsed: no ancestor can
cancel it, and it is done with `DeadlineExceeded` or its deadline is
pending. -/
theorem timeout_ctx {parent : Context} (hparent : parent.Quiet) (d : Int) :
    (WithTimeout parent d).canCancel = false ∧
    ((WithTimeout parent d).err = some .DeadlineExceeded ∨
      ((WithTimeout parent d).err = none ∧ (WithTimeout parent d).canExpire = true)) ∧
    (0 < d → (WithTimeout parent d).err = none) ∧
    (WithTimeout parent d).expire.canCancel = false ∧
    ((WithTimeout parent d).canExpire = true →
      (WithTimeout parent d).expire.err = some .DeadlineExceeded) := by
  obtain ⟨h1, h2, h3⟩ := hparent
  by_cases hd : d ≤ 0
  · simp [WithTimeout, h1, hd, Context.expire]
  · simp [WithTimeout, h1, hd, h3, Context.expire]

/-- A task whose work function never returns, whose context no ancestor can
cancel, and which is done with `DeadlineExceeded` or has a pending deadline:
on every schedule its only Result is `DeadlineExceeded` with no value. -/
theorem reports_never {r : Runner} (hr : r.WF) {k : String} {rt : RunnerTask}
    (hget : r.get k = some rt) (hret : rt.task.ret = none) (hcc : rt.ctx.canCancel = false)
    (herr : rt.ctx.err = some .DeadlineExceeded ∨
      (rt.ctx.err = none ∧ rt.ctx.canExpire = true)) :
    Reports r k { key := k, Value := .nil, Error := some .DeadlineExceeded } := by
  have key : ∀ sched s, exec r.start sched = some s →
      (∀ x, mapGet s.responses k = some x →
        x = { key := k, Value := .nil, Error := some .DeadlineExceeded }) ∧
      (∀ x ∈ s.respCh, x.key = k →
        x = { key := k, Value := .nil, Error := some .DeadlineExceeded }) ∧
      (s.returned = true →
        { key := k, Value := .nil, Error := some .DeadlineExceeded } ∈ s.respCh ∨
        mapGet s.responses k =
          some { key := k, Value := .nil, Error := some .DeadlineExceeded }) := by
    intro sched s h
    obtain ⟨g, hg, hgk⟩ := start_has_spawn hget ⟨sched, h⟩
    have hP := exec_spawn_pred
      (fun g => g.rt.task = rt.task ∧ g.rt.ctx.canCancel = false ∧
        (g.rt.ctx.err = none ∨ g.rt.ctx.err = some .DeadlineExceeded))
      (by
        intro g g' c f a eff hp hstep
        refine ⟨(spawn_task hstep).trans hp.1, ?_⟩
        obtain ⟨-, hp2, hp3⟩ := hp
        cases a <;> simp only [spawn] at hstep <;> (repeat' (split at hstep)) <;>
          simp at hstep <;> obtain ⟨rfl, -⟩ := hstep <;>
          simp_all [Context.expire, Context.cancel])
      k
      (fun g hg hk => by
        rw [start_spawn_eq hr hget g hg hk]
        refine ⟨rfl, hcc, ?_⟩
        rcases herr with h | h
        · exact Or.inr h
        · exact Or.inl h.1)
      h g hg hgk
    have := reported_at hr ⟨sched, h⟩ hg
      { key := k, Value := .nil, Error := some .DeadlineExceeded }
      (by
        intro x hx
        obtain ⟨ht, -, he⟩ := hP
        obtain ⟨-, ⟨e', he', rfl⟩ | ⟨-, v', e', hv, -⟩⟩ := hx
        · rcases he with he | he
          · rw [he] at he'; cases he'
          · rw [he] at he'
            simp only [Option.some.injEq] at he'
            rw [← he', hgk]
        · rw [ht, hret] at hv; cases hv)
    rw [hgk] at this
    exact this
  refine ⟨key, ?_, ?_⟩
  · intro sched r' m x hrun hx
    obtain ⟨s, hs, -, rfl, -⟩ := Run_some hrun
    exact (key sched s hs).1 x hx
  · rcases herr with h | h
    · obtain ⟨s, hs, hres, -, -⟩ := record_ctx hget h
      exact ⟨_, s, hs, hres⟩
    · obtain ⟨s, hs, hres, -, -⟩ := record_deadline hget h.1 h.2
      exact ⟨_, s, hs, hres⟩

/-! ## The claims -/

/-- C1 (fails on the code).  With the one task of `TestRunner_AddTask`
registered, there is a schedule on which `Run` returns an empty mapping: the
`spawn` call sends its Result on the buffered `respCh` and calls `wg.Done()`,
the launcher closes `exitChan`, and the collector's `select`, with both
cases ready, takes `exitChan`.  The Result is still in `respCh` when `Run`
returns.  With the two tasks of `TestRunner_AddMultipleTasks` the same
happens after the collector has received the first Result: the mapping has
one entry. -/
theorem collector_exit_drops_result :
    runnerOne.tasks.length = 1 ∧
    runnerOne.Run (viaWork "test" ++ [.wait, .exit]) = some (NewRunner, []) ∧
    (exec runnerOne.start (viaWork "test" ++ [.wait, .exit])).map (fun s => s.respCh) =
      some [{ key := "test", Value := .str "here", Error := none }] ∧
    runnerTwo.tasks.length = 2 ∧
    runnerTwo.Run (viaWork "test" ++ [.recv] ++ viaWork "test2" ++ [.wait, .exit]) =
      some (NewRunner, [("test", { key := "test", Value := .str "here", Error := none })]) := by
  decide

/-- C2.  Let `AddTask(rf, name)` register a task under a name that was free,
and let `r` be a registry in which the entry of `name` is still the one that
call stored (nothing has fired its signal; other tasks may have been added or
cancelled).  `AddTask` returned `nil`, and when the work function returns
`(v, e)`, `Run` on `r` reports `Value = v` and `Error = e` for `name`, in the
sense of `Reports`: nothing else is ever recorded or in flight under the name,
the value has been put on the channel when `Run` returns, and there is a
schedule on which it is recorded. -/
theorem addTask_result_verbatim (r0 : Runner) (rf : RunnerFunc) (name : String)
    (v : GoAny) (e : Option GoError) (hfresh : r0.has name = false)
    (hret : rf.ret = some (v, e)) (r : Runner) (hr : r.WF)
    (hkeep : r.get name = (r0.AddTask rf name).1.get name) :
    (r0.AddTask rf name).2 = none ∧
    Reports r name { key := name, Value := v, Error := e } := by
  rw [AddTask_get_new hfresh] at hkeep
  exact ⟨by simp [Runner.AddTask, hfresh], reports_work hr hkeep ⟨rfl, rfl, rfl⟩ hret⟩

/-- C2 at the registry of `TestRunner_AddMultipleTasks`: the task `test`,
registered first, is reported with `("here", nil)`. -/
theorem addTask_result_verbatim_witness :
    NewRunner.has "test" = false ∧ fnHere.ret = some (.str "here", none) ∧ runnerTwo.WF ∧
    runnerTwo.get "test" = (NewRunner.AddTask fnHere "test").1.get "test" ∧
    Reports runnerTwo "test" { key := "test", Value := .str "here", Error := none } :=
  ⟨by decide, by decide, by decide, by decide,
    (addTask_result_verbatim NewRunner fnHere "test" (.str "here") none (by decide) (by decide)
      runnerTwo (by decide) (by decide)).2⟩

/-- C3.  `AddTask` and `AddTaskWithTimeout` fail exactly when the name is
registered.  Then they return the error with the message
"task with name <name> already added to task queue" and the registry they
leave is the one they found, so every name has the same entry and `Run` does
the same; when the name is absent they return `nil`. -/
theorem addTask_duplicate_name (r : Runner) (rf : RunnerFunc) (name : String)
    (ctx : Context) (d : Int) :
    (r.has name = true →
      (r.AddTask rf name).1 = r ∧ (r.AddTaskWithTimeout rf name ctx d).1 = r ∧
      (r.AddTask rf name).2.map GoError.Error =
        some ("task with name " ++ name ++ " already added to task queue") ∧
      (r.AddTaskWithTimeout rf name ctx d).2.map GoError.Error =
        some ("task with name " ++ name ++ " already added to task queue") ∧
      (∀ k, (r.AddTask rf name).1.get k = r.get k ∧
        (r.AddTaskWithTimeout rf name ctx d).1.get k = r.get k) ∧
      (∀ sched, (r.AddTask rf name).1.Run sched = r.Run sched ∧
        (r.AddTaskWithTimeout rf name ctx d).1.Run sched = r.Run sched)) ∧
    (r.has name = false →
      (r.AddTask rf name).2 = none ∧ (r.AddTaskWithTimeout rf name ctx d).2 = none) := by
  constructor
  · intro h
    simp [Runner.AddTask, Runner.AddTaskWithTimeout, h, GoError.Error]
  · intro h
    simp [Runner.AddTask, Runner.AddTaskWithTimeout, h]

/-- C3 at the registry of `TestRunner_AddMultipleTasks_Dupes`: the second
`AddTask` under `test` fails with the message of the test and changes
nothing; a free name is accepted. -/
theorem addTask_duplicate_name_witness :
    runnerOne.has "test" = true ∧ runnerOne.has "test2" = false ∧
    (runnerOne.AddTask fnOne "test").1 = runnerOne ∧
    (runnerOne.AddTask fnOne "test").2.map GoError.Error =
      some "task with name test already added to task queue" ∧
    (runnerOne.AddTask fnOne "test2").2 = none :=
  ⟨by decide, by decide,
   ((addTask_duplicate_name runnerOne fnOne "test" Background 1).1 (by decide)).1,
   ((addTask_duplicate_name runnerOne fnOne "test" Background 1).1 (by decide)).2.2.1,
   ((addTask_duplicate_name runnerOne fnOne "test2" Background 1).2 (by decide)).1⟩

/-- C4, counterexample.  A task registered with a timeout of zero has a signal
that fired with `DeadlineExceeded` at registration.  `CancelAll` leaves that
error in place, and `Run` reports the task with `DeadlineExceeded`, not with
`Canceled`. -/
theorem cancelAll_expired_counterexample :
    runnerExpired.CancelAll.Run (viaCtx "test2" ++ [.recv, .wait, .exit]) =
      some (NewRunner,
        [("test2", { key := "test2", Value := .nil, Error := some .DeadlineExceeded })]) := by
  decide

/-- C4, amended.  After `CancelAll`, every registered task whose signal had
not already fired with another error than `Canceled` is reported by `Run`
with a nil `Value` and the error `Canceled`, and its work function is never
started; this holds for the entries of `AddTask` and of `AddTaskWithTimeout`
alike. -/
theorem cancelAll_reports_canceled (r : Runner) (hr : r.WF) (name : String) (rt : RunnerTask)
    (hreg : r.get name = some rt)
    (hfree : rt.ctx.err = none ∨ rt.ctx.err = some .Canceled) :
    NeverStarted r.CancelAll name ∧
    Reports r.CancelAll name { key := name, Value := .nil, Error := some .Canceled } :=
  reports_canceled (CancelAll_WF hr)
    (show r.CancelAll.get name = some { rt with ctx := rt.ctx.cancel } by
      rw [CancelAll_get, hreg]; rfl)
    (cancel_err hfree)

/-- C4 at the registry of `TestRunner_CancelAll`, for its task with a
timeout. -/
theorem cancelAll_reports_canceled_witness :
    runnerTimeout.WF ∧
    runnerTimeout.get "test2" =
      some { task := fnOne, ctx := WithTimeout Background 1000000000 } ∧
    (WithTimeout Background 1000000000).err = none ∧
    NeverStarted runnerTimeout.CancelAll "test2" ∧
    Reports runnerTimeout.CancelAll "test2"
      { key := "test2", Value := .nil, Error := some .Canceled } :=
  ⟨by decide, by decide, by decide,
    cancelAll_reports_canceled runnerTimeout (by decide) "test2"
      { task := fnOne, ctx := WithTimeout Background 1000000000 } (by decide)
      (Or.inl (by decide))⟩

/-- C5, counterexample.  In the registry of `TestRunner_AddMultipleTasks`
with `test2` cancelled before, `CancelTaskByName("test")` followed by `Run`
reports `Canceled` for the sibling `test2` too, not the `1` its work function
returns. -/
theorem cancelByName_sibling_counterexample :
    ((runnerTwo.CancelTaskByName "test2").CancelTaskByName "test").Run
        (viaCtx "test" ++ viaCtx "test2" ++ [.recv, .recv, .wait, .exit]) =
      some (NewRunner,
        [("test2", { key := "test2", Value := .nil, Error := some .Canceled }),
         ("test", { key := "test", Value := .nil, Error := some .Canceled })]) := by
  decide

/-- C5, amended.  `CancelTaskByName(x)` keeps the registered names, keeps
every work function, and changes no signal but that of `x`, on which it calls
the cancel function; when `x` is not registered it changes nothing.  In a
following `Run`, `x` is reported as `Canceled` with a nil `Value`, its work
function not started, when its signal had not already fired with another
error; and each sibling whose signal has not fired is reported with what its
work function returns on every run on which nothing fires its signal, which
is every run when only its own cancel function can fire it. -/
theorem cancelTaskByName_frame (r : Runner) (hr : r.WF) (x : String) :
    (r.CancelTaskByName x).tasks.map Prod.fst = r.tasks.map Prod.fst ∧
    (∀ k rt, r.get k = some rt →
      (r.CancelTaskByName x).get k =
        some (if k = x then { rt with ctx := rt.ctx.cancel } else rt)) ∧
    (r.has x = false → r.CancelTaskByName x = r) ∧
    (∀ rt, r.get x = some rt → (rt.ctx.err = none ∨ rt.ctx.err = some .Canceled) →
      NeverStarted (r.CancelTaskByName x) x ∧
      Reports (r.CancelTaskByName x) x { key := x, Value := .nil, Error := some .Canceled }) ∧
    (∀ k rt v e, k ≠ x → r.get k = some rt → rt.ctx.err = none → rt.task.ret = some (v, e) →
      ReportsCalm (r.CancelTaskByName x) k { key := k, Value := v, Error := e }) ∧
    (∀ k rt v e, k ≠ x → r.get k = some rt → rt.ctx.Quiet → rt.task.ret = some (v, e) →
      Reports (r.CancelTaskByName x) k { key := k, Value := v, Error := e }) := by
  refine ⟨CancelTaskByName_keys r x, CancelTaskByName_get r x, CancelTaskByName_absent r x,
    ?_, ?_, ?_⟩
  · intro rt hreg hfree
    have hget := CancelTaskByName_get r x x rt hreg
    rw [if_pos rfl] at hget
    exact reports_canceled (CancelTaskByName_WF hr x) hget (cancel_err hfree)
  · intro k rt v e hne hreg herr hret
    have hget := CancelTaskByName_get r x k rt hreg
    rw [if_neg hne] at hget
    exact reports_work_calm (CancelTaskByName_WF hr x) hget herr hret
  · intro k rt v e hne hreg hq hret
    have hget := CancelTaskByName_get r x k rt hreg
    rw [if_neg hne] at hget
    exact reports_work (CancelTaskByName_WF hr x) hget hq hret

/-- C5 at the registry of `TestRunner_CancelByName`: `test` is reported as
`Canceled`, and the sibling `test2`, which has a timeout, is reported with the
`1` of its work function when its deadline does not elapse during the run. -/
theorem cancelTaskByName_frame_witness :
    runnerTimeout.WF ∧
    (runnerTimeout.CancelTaskByName "test").tasks.map Prod.fst = ["test", "test2"] ∧
    Reports (runnerTimeout.CancelTaskByName "test") "test"
      { key := "test", Value := .nil, Error := some .Canceled } ∧
    ReportsCalm (runnerTimeout.CancelTaskByName "test") "test2"
      { key := "test2", Value := .int 1, Error := none } :=
  ⟨by decide,
    (cancelTaskByName_frame runnerTimeout (by decide) "test").1,
    ((cancelTaskByName_frame runnerTimeout (by decide) "test").2.2.2.1
      { task := fnHere, ctx := WithCancel Background } (by decide) (Or.inl (by decide))).2,
    (cancelTaskByName_frame runnerTimeout (by decide) "test").2.2.2.2.1 "test2"
      { task := fnOne, ctx := WithTimeout Background 1000000000 } (.int 1) none
      (by decide) (by decide) (by decide) (by decide)⟩

/-- C6, counterexample.  On the runner of
`TestRunner_AddMultipleTasksWithTimeoutTimeout` the task `test2` has a timeout
of one second and a parent that never fires, and nobody cancels it.  On
`schedLateSelect` its deadline elapses while its work function is still
running (after the three steps shown the context is done with
`DeadlineExceeded` and the work function has not returned), the work function
returns after that, and the `select` of `spawn`, which runs after both and
finds both cases ready, takes `subChan`: `Run` reports the value `1` of the
work function, not `DeadlineExceeded`.  On `schedLateSelectDone` the work
function returns while the deadline is pending, the deadline elapses after
that, and the `select` takes `ctx.Done()`: `Run` reports `DeadlineExceeded`,
not the return of the work function. -/
theorem timeout_tie_counterexample :
    runnerTimeout.get "test2" =
      some { task := fnOne, ctx := WithTimeout Background 1000000000 } ∧
    (exec runnerTimeout.start (viaWork "test" ++ [.recv] ++
        [.spawn "test2" .begin, .spawn "test2" .check, .spawn "test2" .deadline])).map
      (fun s => s.spawns.map (fun g => (g.runnerId, g.rt.ctx.err, g.work, g.pc))) =
      some [("test", none, .returned, .finished),
            ("test2", some .DeadlineExceeded, .running, .select)] ∧
    runnerTimeout.Run schedLateSelect =
      some (NewRunner, [("test2", { key := "test2", Value := .int 1, Error := none }),
                        ("test", { key := "test", Value := .str "here", Error := none })]) ∧
    (exec runnerTimeout.start (viaWork "test" ++ [.recv] ++
        [.spawn "test2" .begin, .spawn "test2" .check, .spawn "test2" .work])).map
      (fun s => s.spawns.map (fun g => (g.runnerId, g.rt.ctx.err, g.work, g.pc))) =
      some [("test", none, .returned, .finished),
            ("test2", none, .returned, .select)] ∧
    runnerTimeout.Run schedLateSelectDone =
      some (NewRunner,
        [("test2", { key := "test2", Value := .nil, Error := some .DeadlineExceeded }),
         ("test", { key := "test", Value := .str "here", Error := none })]) :=
  ⟨by decide, by decide, by decide, by decide, by decide⟩

/-- C6, amended.  Let `AddTaskWithTimeout(rf, name, parent, d)` register a
task under a name that was free, with a parent that never fires, and let `r`
be a registry in which the entry of `name` is the one that call stored, as it
was stored or after its deadline has elapsed (nobody has cancelled it; other
tasks may have been added or cancelled).  The call returned `nil`, and what
`Run` on `r` reports for `name` is decided at the moment the `spawn` call of
the task takes its `select`:

* when the work function has not returned at that moment, the Result is a nil
  `Value` with `DeadlineExceeded`, whatever happens later (`ReportsWhen` with
  `NoReturn`); in particular this is the Result on every run when the work
  function never returns (`Reports`);
* when the work function returns `(v, e)`, the duration is positive, the
  deadline has not elapsed before `Run` and does not elapse up to that moment,
  the Result is `Value = v` and `Error = e`, whatever happens later
  (`ReportsWhen` with `Calm`); in particular this is the Result on every run
  on which the deadline does not elapse (`ReportsCalm`).

When the work function has returned and the deadline has elapsed before the
`select` runs, either of the two is reported. -/
theorem timeout_result (r0 : Runner) (rf : RunnerFunc) (name : String) (parent : Context)
    (d : Int) (hfresh : r0.has name = false) (hparent : parent.Quiet) (r : Runner) (hr : r.WF)
    (hkeep : r.get name = (r0.AddTaskWithTimeout rf name parent d).1.get name ∨
      r.get name = ((r0.AddTaskWithTimeout rf name parent d).1.elapse name).get name) :
    (r0.AddTaskWithTimeout rf name parent d).2 = none ∧
    ReportsWhen (NoReturn name) r name
      { key := name, Value := .nil, Error := some .DeadlineExceeded } ∧
    (rf.ret = none →
      Reports r name { key := name, Value := .nil, Error := some .DeadlineExceeded }) ∧
    (∀ v e, rf.ret = some (v, e) → 0 < d →
      r.get name = (r0.AddTaskWithTimeout rf name parent d).1.get name →
      ReportsWhen (Calm name) r name { key := name, Value := v, Error := e } ∧
      ReportsCalm r name { key := name, Value := v, Error := e }) := by
  obtain ⟨hc1, hc2, hc3, hc4, hc5⟩ := timeout_ctx hparent d
  have hnew : (r0.AddTaskWithTimeout rf name parent d).1.get name =
      some { task := rf, ctx := WithTimeout parent d } := AddTaskWithTimeout_get_new hfresh
  have hlate : ∃ rt, r.get name = some rt ∧ rt.task = rf ∧ rt.ctx.canCancel = false ∧
      (rt.ctx.err = some .DeadlineExceeded ∨ (rt.ctx.err = none ∧ rt.ctx.canExpire = true)) := by
    rcases hkeep with h | h
    · rw [hnew] at h
      exact ⟨_, h, rfl, hc1, hc2⟩
    · rw [elapse_get _ _ _ hnew] at h
      refine ⟨_, h, ?_⟩
      by_cases hexp : (WithTimeout parent d).canExpire = true
      · rw [if_pos hexp]
        exact ⟨rfl, hc4, Or.inl (hc5 hexp)⟩
      · rw [if_neg hexp]
        exact ⟨rfl, hc1, hc2⟩
  obtain ⟨rt, hget, htask, hcc, herr⟩ := hlate
  refine ⟨by simp [Runner.AddTaskWithTimeout, hfresh], reports_late hr hget hcc herr, ?_, ?_⟩
  · intro hret
    exact reports_never hr hget (by rw [htask]; exact hret) hcc herr
  · intro v e hret hd h
    rw [hnew] at h
    exact ⟨reports_early hr h (hc3 hd) hret, reports_work_calm hr h (hc3 hd) hret⟩

/-- C6 (amended) at the registry of
`TestRunner_AddMultipleTasksWithTimeoutTimeout`: the task `test2`, registered
with a timeout of one second. -/
theorem timeout_result_witness :
    runnerOne.has "test2" = false ∧ Background.Quiet ∧ runnerTimeout.WF ∧
    runnerTimeout.get "test2" =
      (runnerOne.AddTaskWithTimeout fnOne "test2" Background 1000000000).1.get "test2" ∧
    ReportsWhen (NoReturn "test2") runnerTimeout "test2"
      { key := "test2", Value := .nil, Error := some .DeadlineExceeded } ∧
    ReportsWhen (Calm "test2") runnerTimeout "test2"
      { key := "test2", Value := .int 1, Error := none } :=
  ⟨by decide, ⟨rfl, rfl, rfl⟩, by decide, by decide,
    (timeout_result runnerOne fnOne "test2" Background 1000000000 (by decide) ⟨rfl, rfl, rfl⟩
      runnerTimeout (by decide) (Or.inl (by decide))).2.1,
    ((timeout_result runnerOne fnOne "test2" Background 1000000000 (by decide) ⟨rfl, rfl, rfl⟩
      runnerTimeout (by decide) (Or.inl (by decide))).2.2.2 (.int 1) none (by decide)
      (by decide) (by decide)).1⟩

/-- C7 (fails on the code).  The signal of the task of `runnerExpired` has
fired with `DeadlineExceeded`, by a deadline, before `Run` is entered.  The
test of line 127 only looks for `Canceled`, so `spawn` invokes the work
function.  On the schedule where its result is handed over before the
`select` runs, the `select`, with both cases ready, takes it: `Run` reports
the value `1` of the work function, not `DeadlineExceeded`.  On the schedule
where the `select` takes `ctx.Done()`, `Run` reports `DeadlineExceeded`, and
the work function that was started all the same sends on the closed `subChan`
when it returns: the program panics. -/
theorem spawn_expired_counterexample :
    runnerExpired.get "test2" =
      some { task := fnOne,
             ctx := { err := some .DeadlineExceeded, canExpire := false, canCancel := false } } ∧
    (exec runnerExpired.start [.spawn "test2" .begin, .spawn "test2" .check]).map
      (fun s => s.spawns.map (fun g => g.work)) = some [.running] ∧
    runnerExpired.Run (viaWork "test2" ++ [.recv, .wait, .exit]) =
      some (NewRunner, [("test2", { key := "test2", Value := .int 1, Error := none })]) ∧
    runnerExpired.Run (viaCtx "test2" ++ [.recv, .wait, .exit]) =
      some (NewRunner,
        [("test2", { key := "test2", Value := .nil, Error := some .DeadlineExceeded })]) ∧
    (exec runnerExpired.start
        (viaCtx "test2" ++ [.recv, .wait, .exit] ++ [.spawn "test2" .work])).map
      (fun s => s.panicked) = some true :=
  ⟨by decide, by decide, by decide, by decide, by decide⟩

/-- The case that the test of line 127 covers.  For every task whose signal
has fired with `Canceled` at the moment `spawn` begins executing it (the call
has not yet passed the test of line 127), the work function is never invoked
afterwards and the only Result of the task is a nil `Value` with the error
`Canceled`: nothing else is ever in the channel or the mapping for it, it has
been put on the channel when `Run` returns, and as long as the program has
not panicked the run can go on to record it. -/
theorem spawn_skips_canceled (r : Runner) (hr : r.WF) (sched : List Action) (s : RunState)
    (h : exec r.start sched = some s) (g : Spawn) (hg : g ∈ s.spawns)
    (hpc : g.pc = .start ∨ g.pc = .check) (hc : g.rt.ctx.err = some .Canceled) :
    (∀ sched' s', exec s sched' = some s' →
      (∀ g' ∈ s'.spawns, g'.runnerId = g.runnerId → g'.work = .idle) ∧
      (∀ x, mapGet s'.responses g.runnerId = some x →
        x = { key := g.runnerId, Value := .nil, Error := some .Canceled }) ∧
      (∀ x ∈ s'.respCh, x.key = g.runnerId →
        x = { key := g.runnerId, Value := .nil, Error := some .Canceled }) ∧
      (s'.returned = true →
        { key := g.runnerId, Value := .nil, Error := some .Canceled } ∈ s'.respCh ∨
        mapGet s'.responses g.runnerId =
          some { key := g.runnerId, Value := .nil, Error := some .Canceled })) ∧
    (s.panicked = false →
      ∃ sched' s', exec s sched' = some s' ∧
        mapGet s'.responses g.runnerId =
          some { key := g.runnerId, Value := .nil, Error := some .Canceled }) := by
  have hs := Inv_reach hr ⟨sched, h⟩
  have hidle : g.work = .idle := (hs.each g hg).early hpc
  have hP : ∀ sched' s', exec s sched' = some s' →
      ∀ g' ∈ s'.spawns, g'.runnerId = g.runnerId → g'.Skipped := fun sched' s' h' =>
    exec_spawn_pred (fun g => g.Skipped)
      (fun g g' c f a eff hp hstep => spawn_skipped hstep hp) g.runnerId
      (fun g' hg' hk => by
        rw [spawn_eq_of_id hs.nodup hg' hg hk]
        exact ⟨hc, hidle⟩) h'
  have key : ∀ sched' s', exec s sched' = some s' →
      (∀ x, mapGet s'.responses g.runnerId = some x →
        x = { key := g.runnerId, Value := .nil, Error := some .Canceled }) ∧
      (∀ x ∈ s'.respCh, x.key = g.runnerId →
        x = { key := g.runnerId, Value := .nil, Error := some .Canceled }) ∧
      (s'.returned = true →
        { key := g.runnerId, Value := .nil, Error := some .Canceled } ∈ s'.respCh ∨
        mapGet s'.responses g.runnerId =
          some { key := g.runnerId, Value := .nil, Error := some .Canceled }) := by
    intro sched' s' h'
    have hreach : Reach r s' := reach_exec ⟨sched, h⟩ h'
    obtain ⟨g', hg', hgk⟩ : ∃ g' ∈ s'.spawns, g'.runnerId = g.runnerId := by
      have : g.runnerId ∈ s'.spawns.map Spawn.runnerId := by
        rw [exec_ids h']
        exact List.mem_map_of_mem _ hg
      obtain ⟨g', hg', hgk⟩ := List.mem_map.1 this
      exact ⟨g', hg', hgk⟩
    have := reported_at hr hreach hg'
      { key := g.runnerId, Value := .nil, Error := some .Canceled }
      (fun x hx => by rw [← hgk]; exact good_of_skipped (hP sched' s' h' g' hg' hgk) hx)
    rw [hgk] at this
    exact this
  refine ⟨fun sched' s' h' =>
    ⟨fun g' hg' hk => (hP sched' s' h' g' hg' hk).2, key sched' s' h'⟩, ?_⟩
  intro hp
  obtain ⟨sched1, s1, g1, x, e1, hp1, hg1, hid1, hpc1⟩ :=
    to_send_canceled hr ⟨sched, h⟩ hp hg hpc hc
  obtain ⟨sched2, s2, e2, hsome⟩ := can_collect hr (reach_exec ⟨sched, h⟩ e1) hp1 hg1 hpc1
  have e12 : exec s (sched1 ++ sched2) = some s2 := by
    rw [exec_append, e1]; exact e2
  rw [hid1] at hsome
  obtain ⟨y, hy⟩ := Option.isSome_iff_exists.1 hsome
  exact ⟨_, s2, e12, by rw [hy, (key _ _ e12).1 y hy]⟩

/-- The skipped work function at the registry of `TestRunner_AddTask` after
`CancelAll`, from the entry of `Run`. -/
theorem spawn_skips_canceled_witness :
    runnerOne.CancelAll.WF ∧
    Spawn.fresh "test" { task := fnHere, ctx := (WithCancel Background).cancel } ∈
      runnerOne.CancelAll.start.spawns ∧
    (WithCancel Background).cancel.err = some .Canceled ∧
    ∃ sched' s', exec runnerOne.CancelAll.start sched' = some s' ∧
      mapGet s'.responses "test" =
        some { key := "test", Value := .nil, Error := some .Canceled } :=
  ⟨by decide, by decide, by decide,
    (spawn_skips_canceled runnerOne.CancelAll (by decide) [] runnerOne.CancelAll.start rfl
      (Spawn.fresh "test" { task := fnHere, ctx := (WithCancel Background).cancel })
      (by decide) (Or.inl rfl) (by decide)).2 (by decide)⟩

/-- C8.  When `Run` has returned, the registry is empty.  A second `Run` on it
returns, after the only two steps it has, and returns an empty mapping; and
`AddTask` accepts every name, those of the drained batch included.  (The
second run is the launcher and the collector of that call; goroutines that the
first call left behind are not part of it.) -/
theorem run_drains_registry (r : Runner) (sched : List Action) (r' : Runner)
    (m : List (String × response)) (h : r.Run sched = some (r', m)) :
    r'.tasks = [] ∧
    r'.Run [.wait, .exit] = some (NewRunner, []) ∧
    (∀ sched2 r2 m2, r'.Run sched2 = some (r2, m2) → sched2 = [.wait, .exit] ∧ m2 = []) ∧
    (∀ rf name, (r'.AddTask rf name).2 = none ∧
      (r'.AddTask rf name).1.get name = some { task := rf, ctx := WithCancel Background }) := by
  obtain ⟨s, -, -, -, rfl⟩ := Run_some h
  refine ⟨rfl, by decide, ?_, ?_⟩
  · intro sched2 r2 m2 h2
    obtain ⟨s2, hs2, hret, rfl, -⟩ := Run_some h2
    rcases exec_empty hs2 with ⟨-, hf⟩ | ⟨-, hf⟩ | ⟨hsched, -, hm⟩
    · rw [hf] at hret; cases hret
    · rw [hf] at hret; cases hret
    · exact ⟨hsched, hm⟩
  · intro rf name
    exact ⟨by simp [Runner.AddTask, Runner.has, NewRunner], AddTask_get_new rfl⟩

/-- C8 after the run of `TestRunner_AddTask`: the registry is empty and the
name `test` can be registered again. -/
theorem run_drains_registry_witness :
    runnerOne.Run (viaWork "test" ++ [.recv, .wait, .exit]) =
      some (NewRunner, [("test", { key := "test", Value := .str "here", Error := none })]) ∧
    NewRunner.tasks = [] ∧ (NewRunner.AddTask fnOne "test").2 = none :=
  ⟨by decide,
    (run_drains_registry runnerOne (viaWork "test" ++ [.recv, .wait, .exit]) NewRunner
      [("test", { key := "test", Value := .str "here", Error := none })] (by decide)).1,
    ((run_drains_registry runnerOne (viaWork "test" ++ [.recv, .wait, .exit]) NewRunner
      [("test", { key := "test", Value := .str "here", Error := none })]
      (by decide)).2.2.2 fnOne "test").1⟩

/-- C9 (fails on the code).  In `TestRunner_AddMultipleTasksWithTimeoutTimeout`
the work function of `test2` outlives its deadline.  `spawn` reports
`DeadlineExceeded` and closes `subChan` (line 152), and `Run` returns what the
test expects.  When the work function then returns, its send on `subChan`
(line 131) is a send on a closed channel: the goroutine panics. -/
theorem work_send_on_closed_subChan :
    (exec runnerTimeout.start schedTimeout).map
        (fun s => (s.returned, s.responses, s.spawns.map (fun g => g.subClosed), s.panicked)) =
      some (true,
        [("test2", { key := "test2", Value := .nil, Error := some .DeadlineExceeded }),
         ("test", { key := "test", Value := .str "here", Error := none })],
        [true, true], true) := by
  decide

/-- C10.  At every moment of every run, for the `spawn` call of every
registered task: the number of Results keyed with its name that are in the
channel `respCh` or collected in the mapping is one when the call is past its
send and zero before, never two; the value a call is about to send is keyed
with the name of its task and is one of the two values of `Good` (the error
of the context with no value, or what the work function returned), whichever
path led to the send; and the send never blocks or panics: in a program that
has not panicked it puts exactly that value on `respCh` and the call moves
on to `close(subChan)`. -/
theorem spawn_sends_exactly_one (r : Runner) (hr : r.WF) (sched : List Action) (s : RunState)
    (h : exec r.start sched = some s) (g : Spawn) (hg : g ∈ s.spawns) :
    r.has g.runnerId = true ∧
    keyCount g.runnerId s.respCh + mapCount g.runnerId s.responses =
      (if g.pc.pastSend then 1 else 0) ∧
    (∀ x, g.pc = .send x → x.key = g.runnerId ∧ Good g x ∧
      (s.panicked = false →
        ∃ s', step s (.spawn g.runnerId .send) = some s' ∧ s'.respCh = s.respCh ++ [x] ∧
          s'.panicked = false ∧ ∀ g' ∈ s'.spawns, g'.runnerId = g.runnerId → g'.pc = .close)) := by
  have hs := Inv_reach hr ⟨sched, h⟩
  refine ⟨has_of_spawn h hg, hs.once g hg, ?_⟩
  intro x hpc
  have hgood := (hs.each g hg).sending x hpc
  refine ⟨hgood.1, hgood, ?_⟩
  intro hp
  obtain ⟨hc, hroom⟩ := send_enabled hs hg hpc
  have e1 := step_spawn_of .send
    ⟨g.runnerId, g.rt, .close, g.work, g.subBuf, g.subClosed⟩ (.push x) hp
    (getSpawn_of_mem hs hg)
    (by
      have : ¬ s.taskLen ≤ s.respCh.length := by omega
      simp [spawn, hpc, hc, this])
  refine ⟨_, e1, ?_, hp, ?_⟩
  · rw [apply_respCh]; rfl
  · intro g' hg' hid
    rw [apply_spawns] at hg'
    rcases mem_putSpawn hg' with rfl | ⟨hmem, hne⟩
    · rfl
    · exact absurd hid hne

/-- C10 at the registry of `TestRunner_AddTask`, when the `spawn` call of
`test` has returned: one Result for `test` is in the channel. -/
theorem spawn_sends_exactly_one_witness :
    runnerOne.WF ∧
    exec runnerOne.start (viaWork "test") =
      some { runnerOne.start with
        spawns := [⟨"test", ⟨fnHere, WithCancel Background⟩, .finished, .returned, none, true⟩]
        respCh := [{ key := "test", Value := .str "here", Error := none }]
        wg := 0 } ∧
    keyCount "test" [{ key := "test", Value := .str "here", Error := none }] +
      mapCount "test" [] = 1 :=
  ⟨by decide, by decide,
    (spawn_sends_exactly_one runnerOne (by decide) (viaWork "test")
      { runnerOne.start with
        spawns := [⟨"test", ⟨fnHere, WithCancel Background⟩, .finished, .returned, none, true⟩]
        respCh := [{ key := "test", Value := .str "here", Error := none }]
        wg := 0 } (by decide)
      ⟨"test", ⟨fnHere, WithCancel Background⟩, .finished, .returned, none, true⟩
      (by decide)).2.1⟩

end GoTaskRunner
